import Mathlib

/-!
# gouefivars: UEFI variable access layer

A shallow embedding of `lib/uefi/vars` (`generic.go`, `windows.go`, `linux.go`).

Conventions of the embedding:

* a Go `byte` is a `Fin 256`; a `[]byte` and a Go `string` are lists of bytes
  (a Go string is its UTF-8 byte sequence);
* `uint` is the 64-bit unsigned integer of the supported platforms.  Every `uint`
  computed by the record parser is below `2^63 + 2^34` (an in-range offset plus
  two 32-bit words), so the sums never wrap and are written over `Nat`; the two
  truncating conversions of the package (`uint32(attributes)` and
  `uint16(len(strPtr) * 2)`) carry their explicit modulus;
* a call either returns a value, returns a Go `error`, or panics:
  `Outcome.ok`, `Outcome.error`, `Outcome.panic`;
* slices handed to the parser have capacity equal to their length
  (`make([]byte, size)` in `GetAllVars`).
-/

namespace Gouefivars

/-! ## Go run-time model -/

/-- A Go `byte`. -/
abbrev Byte := Fin 256

/-- A Go `string`: its bytes. -/
abbrev GoString := List Byte

/-- The conversion `byte(n)` of an unsigned integer: the low eight bits. -/
def toByte (n : Nat) : Byte := ⟨n % 256, Nat.mod_lt n (by decide)⟩

/-- A string literal of the source, as the bytes of its (ASCII) characters. -/
def lit (s : String) : GoString := s.toList.map (fun c => toByte c.toNat)

/-- Result of a Go call: a returned value, a returned `error` (with the fixed part of
its message; formatted arguments are left out), or a run-time panic. -/
inductive Outcome (α : Type) where
  | ok (val : α)
  | error (msg : String)
  | panic
  deriving DecidableEq, Repr

namespace Outcome

/-- Sequencing: the first failure (error return or panic) ends the call. -/
def bind {α β : Type} : Outcome α → (α → Outcome β) → Outcome β
  | ok a, f => f a
  | error m, _ => error m
  | panic, _ => panic

instance : Monad Outcome where
  pure := Outcome.ok
  bind := Outcome.bind

/-- Whether the call returned a value. -/
def isOk {α : Type} : Outcome α → Bool
  | ok _ => true
  | _ => false

end Outcome

/-- The index expression `s[i]` for an `int` or `uint` index known to be non-negative:
panics when `i` is out of range. -/
def index {α : Type} (s : List α) (i : Nat) : Outcome α :=
  match s[i]? with
  | some x => .ok x
  | none => .panic

/-- The index expression `s[i]` for a signed index: panics when `i` is negative or
out of range. -/
def indexInt {α : Type} (s : List α) (i : Int) : Outcome α :=
  if 0 ≤ i then index s i.toNat else .panic

/-- The slice expression `s[lo:hi]` on a slice whose capacity equals its length:
panics unless `lo ≤ hi ≤ len(s)`. -/
def slice {α : Type} (s : List α) (lo hi : Nat) : Outcome (List α) :=
  if lo ≤ hi ∧ hi ≤ s.length then .ok ((s.take hi).drop lo) else .panic

/-- The builtin `copy(dst, src)`: the first `min(len(dst), len(src))` elements of
`dst` are overwritten. -/
def copy {α : Type} (dst src : List α) : List α :=
  src.take (min dst.length src.length) ++ dst.drop (min dst.length src.length)

/-! ## `encoding/binary`

The decoders are written by value (`b0 + 2^8 * b1 + ...`); the library ors the shifted
bytes together, which is the same number because the shifted bytes do not overlap. -/

/-- Go `binary.LittleEndian.Uint16(b)`. -/
def LittleEndian.Uint16 (b : List Byte) : Outcome Nat := do
  let _ ← index b 1
  let b0 ← index b 0
  let b1 ← index b 1
  pure (b0.val + b1.val * 2 ^ 8)

/-- Go `binary.LittleEndian.Uint32(b)`. -/
def LittleEndian.Uint32 (b : List Byte) : Outcome Nat := do
  let _ ← index b 3
  let b0 ← index b 0
  let b1 ← index b 1
  let b2 ← index b 2
  let b3 ← index b 3
  pure (b0.val + b1.val * 2 ^ 8 + b2.val * 2 ^ 16 + b3.val * 2 ^ 24)

/-- Go `binary.LittleEndian.PutUint32(b, v)`: the four low bytes of `v`, lowest first,
stored into `b[0..4]`. -/
def LittleEndian.PutUint32 (b : List Byte) (v : Nat) : Outcome (List Byte) := do
  let _ ← index b 3
  pure ((((b.set 0 (toByte v)).set 1 (toByte (v / 2 ^ 8))).set 2 (toByte (v / 2 ^ 16))).set 3
    (toByte (v / 2 ^ 24)))

/-- Go `binary.BigEndian.Uint16(b)`. -/
def BigEndian.Uint16 (b : List Byte) : Outcome Nat := do
  let _ ← index b 1
  let b0 ← index b 0
  let b1 ← index b 1
  pure (b1.val + b0.val * 2 ^ 8)

/-- Go `binary.BigEndian.Uint32(b)`. -/
def BigEndian.Uint32 (b : List Byte) : Outcome Nat := do
  let _ ← index b 3
  let b0 ← index b 0
  let b1 ← index b 1
  let b2 ← index b 2
  let b3 ← index b 3
  pure (b3.val + b2.val * 2 ^ 8 + b1.val * 2 ^ 16 + b0.val * 2 ^ 24)

/-- Go `binary.BigEndian.Uint64(b)`. -/
def BigEndian.Uint64 (b : List Byte) : Outcome Nat := do
  let _ ← index b 7
  let b0 ← index b 0
  let b1 ← index b 1
  let b2 ← index b 2
  let b3 ← index b 3
  let b4 ← index b 4
  let b5 ← index b 5
  let b6 ← index b 6
  let b7 ← index b 7
  pure (b7.val + b6.val * 2 ^ 8 + b5.val * 2 ^ 16 + b4.val * 2 ^ 24 +
    b3.val * 2 ^ 32 + b2.val * 2 ^ 40 + b1.val * 2 ^ 48 + b0.val * 2 ^ 56)

/-! ## `github.com/google/uuid` -/

/-- A `uuid.UUID`: an array of 16 bytes. -/
structure UUID where
  bytes : List Byte
  size : bytes.length = 16
  deriving DecidableEq, Repr

/-- The zero value of `uuid.UUID`. -/
def UUID.zero : UUID := ⟨List.replicate 16 0, by decide⟩

/-- Go `uuid.FromBytes(b)`: an error unless `b` has 16 bytes. -/
def UUID.FromBytes (b : List Byte) : Outcome UUID :=
  if h : b.length = 16 then .ok ⟨b, h⟩ else .error "invalid UUID"

/-- Method `g.MarshalBinary()`: the 16 bytes (the error result is always nil). -/
def UUID.MarshalBinary (g : UUID) : List Byte := g.bytes

/-! ## `unicode/utf16` and the conversion `string([]rune)` -/

/-- The first high surrogate. -/
def surr1 : Nat := 0xd800
/-- The first low surrogate. -/
def surr2 : Nat := 0xdc00
/-- One past the last low surrogate. -/
def surr3 : Nat := 0xe000
/-- The first code point encoded as a surrogate pair. -/
def surrSelf : Nat := 0x10000
/-- U+FFFD, the replacement character. -/
def replacementChar : Nat := 0xFFFD

/-- Go `utf16.Decode(s)`: code units to runes; a valid surrogate pair gives one rune, an
unpaired surrogate gives U+FFFD. -/
def utf16Decode : List Nat → List Nat
  | [] => []
  | [r] => if r < surr1 ∨ surr3 ≤ r then [r] else [replacementChar]
  | r :: r2 :: rest =>
    if r < surr1 ∨ surr3 ≤ r then r :: utf16Decode (r2 :: rest)
    else if surr1 ≤ r ∧ r < surr2 ∧ surr2 ≤ r2 ∧ r2 < surr3 then
      (((r - surr1) * 2 ^ 10 + (r2 - surr2)) + surrSelf) :: utf16Decode rest
    else replacementChar :: utf16Decode (r2 :: rest)

/-- UTF-8 encoding of one rune, as the conversion `string([]rune)` does it: surrogates
and values above U+10FFFF are written as U+FFFD. -/
def encodeRune (r : Nat) : List Byte :=
  if r < 0x80 then [toByte r]
  else if r < 0x800 then [toByte (0xC0 + r / 2 ^ 6), toByte (0x80 + r % 2 ^ 6)]
  else if 0x10FFFF < r ∨ (surr1 ≤ r ∧ r < surr3) then [0xEF, 0xBF, 0xBD]
  else if r < 0x10000 then
    [toByte (0xE0 + r / 2 ^ 12), toByte (0x80 + r / 2 ^ 6 % 2 ^ 6), toByte (0x80 + r % 2 ^ 6)]
  else
    [toByte (0xF0 + r / 2 ^ 18), toByte (0x80 + r / 2 ^ 12 % 2 ^ 6),
      toByte (0x80 + r / 2 ^ 6 % 2 ^ 6), toByte (0x80 + r % 2 ^ 6)]

/-- The conversion `string(runes)`. -/
def stringOfRunes (runes : List Nat) : GoString :=
  (runes.map encodeRune).flatten

/-! ## `generic.go`: the value object -/

/-- The struct `variablePrivateData` of `windows.go`. -/
structure variablePrivateData where
  Value : List Byte
  Attributes : Nat
  deriving DecidableEq, Repr

/-- The dynamic content of the field `private interface{}`: the nil interface, or a
`*variablePrivateData` (a pointer that may itself be nil).  No other dynamic type is
ever stored by the package. -/
inductive PrivateIface where
  | nilIface
  | ptr (p : Option variablePrivateData)
  deriving DecidableEq, Repr

/-- The struct `UefiVariable`; `priv` is its field `private`. -/
structure UefiVariable where
  GUID : UUID
  Name : GoString
  priv : PrivateIface
  deriving DecidableEq, Repr

/-- The zero value `var ret UefiVariable`. -/
def UefiVariable.zero : UefiVariable := ⟨UUID.zero, [], .nilIface⟩

/-! ## `windows.go` -/

namespace Windows

/-- Go `getULong`: four bytes at `offset`, lowest first. -/
def getULong (array : List Byte) (offset : Nat) : Outcome Nat := do
  let b0 ← index array offset
  let b1 ← index array (offset + 1)
  let b2 ← index array (offset + 2)
  let b3 ← index array (offset + 3)
  pure (b0.val + (b1.val <<< 8) + (b2.val <<< 16) + (b3.val <<< 24))

/-- Go `getGUIDFromByteSlice`: the first three fields of the firmware layout are
byte-swapped into the big-endian order of `uuid.UUID`. -/
def getGUIDFromByteSlice (data : List Byte) : Outcome UUID := do
  let newGUIDBytes := copy (List.replicate 16 (0 : Byte)) data
  let d3 ← index data 3
  let newGUIDBytes := newGUIDBytes.set 0 d3
  let d2 ← index data 2
  let newGUIDBytes := newGUIDBytes.set 1 d2
  let d1 ← index data 1
  let newGUIDBytes := newGUIDBytes.set 2 d1
  let d0 ← index data 0
  let newGUIDBytes := newGUIDBytes.set 3 d0
  let d5 ← index data 5
  let newGUIDBytes := newGUIDBytes.set 4 d5
  let d4 ← index data 4
  let newGUIDBytes := newGUIDBytes.set 5 d4
  let d7 ← index data 7
  let newGUIDBytes := newGUIDBytes.set 6 d7
  let d6 ← index data 6
  let newGUIDBytes := newGUIDBytes.set 7 d6
  UUID.FromBytes newGUIDBytes

/-- The loop filling `utf16Buff`: `count` code units read from `nameBuff`, starting at
unit `i`, each as low byte plus high byte shifted by eight. -/
def readCodeUnits (nameBuff : List Byte) : (count i : Nat) → Outcome (List Nat)
  | 0, _ => .ok []
  | count + 1, i => do
    let lo ← index nameBuff (i * 2)
    let hi ← index nameBuff ((i * 2) + 1)
    let rest ← readCodeUnits nameBuff count (i + 1)
    pure ((lo.val + (hi.val <<< 8)) :: rest)

/-- Go `getUefiVariableFromByteStream`: the variable of the record at `offset` and the
offset of the next record (0 after the last one). -/
def getUefiVariableFromByteStream (stream : List Byte) (offset : Nat) :
    Outcome (UefiVariable × Nat) := do
  let ret := UefiVariable.zero
  let nextOffset ← getULong stream offset
  let valueOffset ← getULong stream (offset + 4)
  let valueLength ← getULong stream (offset + 8)
  let value ← slice stream (offset + valueOffset) (offset + valueOffset + valueLength)
  let attributes ← getULong stream (offset + 12)
  let guid ← getGUIDFromByteSlice (← slice stream (offset + 16) (offset + 32))
  let ret := { ret with GUID := guid }
  let nameBuff ← slice stream (offset + 32) (offset + valueOffset)
  -- make([]uint16, (len(nameBuff)/2)-1) panics on a negative length
  let n : Int := ((nameBuff.length / 2 : Nat) : Int) - 1
  if n < 0 then .panic else
  let utf16Buff ← readCodeUnits nameBuff n.toNat 0
  let name := utf16Decode utf16Buff
  let ret := { ret with Name := stringOfRunes name }
  let last ← indexInt ret.Name ((ret.Name.length : Int) - 1)
  let ret := if last = 0 then { ret with Name := ret.Name.take (ret.Name.length - 1) } else ret
  let ret := { ret with priv := .ptr (some ⟨value, attributes⟩) }
  if nextOffset = 0 then pure (ret, 0) else pure (ret, nextOffset + offset)

/-- The loop of Go `GetAllVars` (windows): while `nextOffset != 0`, parse the record
at `nextOffset` and append it.  `fuel` bounds the number of iterations of the model;
`none` means the bound was reached before the loop ended. -/
def GetAllVars.loop (buffer : List Byte) :
    (fuel nextOffset : Nat) → (retVal : List UefiVariable) → Option (Outcome (List UefiVariable))
  | 0, _, _ => none
  | fuel + 1, nextOffset, retVal =>
    if nextOffset ≠ 0 then
      match getUefiVariableFromByteStream buffer nextOffset with
      | .ok (uVar, nextOffset) => GetAllVars.loop buffer fuel nextOffset (retVal ++ [uVar])
      | .error msg => some (.error msg)
      | .panic => some .panic
    else some (.ok retVal)

/-- Go `GetAllVars` (windows), from the point where the enumeration buffer has been
filled by `NtEnumerateSystemEnvironmentValuesEx`: `buffer` is that buffer.  The
privilege adjustment and the system calls are the environment.  The loop is given
`len(buffer) + 1` iterations. -/
def GetAllVars (buffer : List Byte) : Option (Outcome (List UefiVariable)) :=
  -- pBuffer = &buffer[0]
  match index buffer 0 with
  | .error msg => some (.error msg)
  | .panic => some .panic
  | .ok _ =>
    let retVal : List UefiVariable := []
    match getUefiVariableFromByteStream buffer 0 with
    | .error msg => some (.error msg)
    | .panic => some .panic
    | .ok (uVar, nextOffset) =>
      GetAllVars.loop buffer (buffer.length + 1) nextOffset (retVal ++ [uVar])

/-- Go `getAttributeForVar` (windows).  The single-value type assertion
`uefiVar.private.(*variablePrivateData)` panics on the nil interface; the test
`data == nil` only sees a nil pointer of the asserted type. -/
def getAttributeForVar (uefiVar : UefiVariable) : Outcome Nat :=
  match uefiVar.priv with
  | .nilIface => .panic
  | .ptr none => .error "no variable data"
  | .ptr (some data) => .ok data.Attributes

/-- Go `getRawValueForVar` (windows); see `getAttributeForVar` for the type assertion. -/
def getRawValueForVar (uefiVar : UefiVariable) : Outcome (List Byte) :=
  match uefiVar.priv with
  | .nilIface => .panic
  | .ptr none => .error "no variable data"
  | .ptr (some data) => .ok data.Value

/-- The struct `winUnicodeString`; `Buffer` is the array that the pointer `*uint16`
addresses. -/
structure winUnicodeString where
  Length : Nat
  MaxLength : Nat
  Buffer : List Nat
  deriving DecidableEq, Repr

end Windows

/-! ## `unicode/utf8` decoding and `syscall.UTF16FromString` -/

/-- The rune at the start of a non-empty string and its width in bytes, as the
conversion `[]rune(s)` decodes it: an invalid or truncated sequence gives U+FFFD with
width 1.  The accept ranges of the second byte are those of the `unicode/utf8` table. -/
def decodeRune (s : List Byte) : Nat × Nat :=
  match s with
  | [] => (replacementChar, 0)
  | s0 :: t =>
    if s0.val < 0x80 then (s0.val, 1)
    else if s0.val < 0xC2 ∨ 0xF5 ≤ s0.val then (replacementChar, 1)
    else
      let sz := if s0.val < 0xE0 then 2 else if s0.val < 0xF0 then 3 else 4
      let lo := if s0.val = 0xE0 then 0xA0 else if s0.val = 0xF0 then 0x90 else 0x80
      let hi := if s0.val = 0xED then 0x9F else if s0.val = 0xF4 then 0x8F else 0xBF
      if s.length < sz then (replacementChar, 1)
      else
        match t with
        | [] => (replacementChar, 1)
        | s1 :: t1 =>
          if s1.val < lo ∨ hi < s1.val then (replacementChar, 1)
          else if sz ≤ 2 then ((s0.val % 2 ^ 5) * 2 ^ 6 + s1.val % 2 ^ 6, 2)
          else
            match t1 with
            | [] => (replacementChar, 1)
            | s2 :: t2 =>
              if s2.val < 0x80 ∨ 0xBF < s2.val then (replacementChar, 1)
              else if sz ≤ 3 then
                ((s0.val % 2 ^ 4) * 2 ^ 12 + (s1.val % 2 ^ 6) * 2 ^ 6 + s2.val % 2 ^ 6, 3)
              else
                match t2 with
                | [] => (replacementChar, 1)
                | s3 :: _ =>
                  if s3.val < 0x80 ∨ 0xBF < s3.val then (replacementChar, 1)
                  else ((s0.val % 2 ^ 3) * 2 ^ 18 + (s1.val % 2 ^ 6) * 2 ^ 12 +
                    (s2.val % 2 ^ 6) * 2 ^ 6 + s3.val % 2 ^ 6, 4)

/-- The conversion `[]rune(s)`, one rune per step; a string of `n` bytes needs at most
`n` steps. -/
def runesOfString.go : (steps : Nat) → List Byte → List Nat
  | 0, _ => []
  | _, [] => []
  | steps + 1, b :: t =>
    let (r, size) := decodeRune (b :: t)
    r :: runesOfString.go steps ((b :: t).drop size)

/-- The conversion `[]rune(s)`. -/
def runesOfString (s : GoString) : List Nat := runesOfString.go s.length s

/-- Go `utf16.Encode(runes)`. -/
def utf16Encode : List Nat → List Nat
  | [] => []
  | v :: rest =>
    if v < surr1 ∨ (surr3 ≤ v ∧ v < surrSelf) then v :: utf16Encode rest
    else if surrSelf ≤ v ∧ v ≤ 0x10FFFF then
      (surr1 + (v - surrSelf) / 2 ^ 10 % 2 ^ 10) :: (surr2 + (v - surrSelf) % 2 ^ 10) ::
        utf16Encode rest
    else replacementChar :: utf16Encode rest

/-- Go `syscall.UTF16FromString(s)`: "the UTF-16 encoding of the UTF-8 string s, with a
terminating NUL added.  If s contains a NUL byte at any location, it returns
(nil, EINVAL)." -/
def UTF16FromString (s : GoString) : Outcome (List Nat) :=
  if (0 : Byte) ∈ s then .error "invalid argument"
  else .ok (utf16Encode (runesOfString s) ++ [0])

/-- The struct `syscall.GUID`. -/
structure GUID where
  Data1 : Nat
  Data2 : Nat
  Data3 : Nat
  Data4 : List Byte
  deriving DecidableEq, Repr

namespace Windows

/-- Go `getWindowsUnicodeString`: the counted string handed to the system call. -/
def getWindowsUnicodeString (str : GoString) : Outcome winUnicodeString := do
  let strPtr ← UTF16FromString str
  -- winStr.Length = uint16(len(strPtr) * 2)
  let Length := (strPtr.length * 2) % 2 ^ 16
  let MaxLength := Length
  -- winStr.Buffer = &strPtr[0]
  let _ ← index strPtr 0
  pure ⟨Length, MaxLength, strPtr⟩

/-- Go `getWindowsGUID`: the big-endian bytes of a `uuid.UUID` as a `syscall.GUID`. -/
def getWindowsGUID (g : UUID) : Outcome GUID := do
  let gBytes := g.MarshalBinary
  let Data1 ← BigEndian.Uint32 (← slice gBytes 0 4)
  let Data2 ← BigEndian.Uint16 (← slice gBytes 4 6)
  let Data3 ← BigEndian.Uint16 (← slice gBytes 6 8)
  let Data4 : List Byte := List.replicate 8 0
  let Data4 := Data4.set 0 (← index gBytes 8)
  let Data4 := Data4.set 1 (← index gBytes 9)
  let Data4 := Data4.set 2 (← index gBytes 10)
  let Data4 := Data4.set 3 (← index gBytes 11)
  let Data4 := Data4.set 4 (← index gBytes 12)
  let Data4 := Data4.set 5 (← index gBytes 13)
  let Data4 := Data4.set 6 (← index gBytes 14)
  let Data4 := Data4.set 7 (← index gBytes 15)
  pure ⟨Data1, Data2, Data3, Data4⟩

/-- Go `setRawValueForVar` (windows).  `call` stands for the system call
`NtSetSystemEnvironmentValueEx` and gives its return code from the counted name, the
GUID, the value, its length and the attributes. -/
def setRawValueForVar (call : winUnicodeString → GUID → List Byte → Nat → Nat → Nat)
    (uefiVar : UefiVariable) (value : List Byte) (attributes : Nat) : Outcome Unit := do
  let pName ← getWindowsUnicodeString uefiVar.Name
  let pGUID ← getWindowsGUID uefiVar.GUID
  -- &value[0]
  let _ ← index value 0
  let rc := call pName pGUID value value.length attributes
  if rc ≠ 0 then .error "failed with return code" else pure ()

/-- Go `GetVarByNameAndGUID` (windows), on the list returned by `GetAllVars`: the
first variable with that name and GUID. -/
def GetVarByNameAndGUID (varList : List UefiVariable) (name : GoString) (guid : UUID) :
    Outcome UefiVariable :=
  match varList with
  | [] => .error "could not locate variable"
  | v :: rest =>
    if name = v.Name ∧ guid.MarshalBinary = v.GUID.MarshalBinary then .ok v
    else GetVarByNameAndGUID rest name guid

/-- The `range` loop of Go `GetVarByName` (windows) and the statements after it.

The loop variable `v` is one variable for the whole loop (the per-loop scoping of Go
before 1.22): every iteration stores the next element into it, and `&v` is the address
of that one variable.  `holder` records whether the pointer `holder` is non-nil; when it
is, it points at `v`.  The result is what the returned pointer addresses when the
function returns, that is, the content of `v` at that moment. -/
def GetVarByName.loop (name : GoString) (strict : Bool) :
    List UefiVariable → (v : UefiVariable) → (found holder : Bool) → Outcome UefiVariable
  | [], v, _, holder =>
    if holder then .ok v else .error "could not locate variable"
  | x :: rest, _, found, holder =>
    let v := x
    if name = v.Name then
      if !strict then .ok v
      else if found then .error "found more than one variable with name "
      else GetVarByName.loop name strict rest v true true
    else GetVarByName.loop name strict rest v found holder

/-- The same loop under the per-iteration scoping of `range` variables (Go 1.22 and
later, when the module declares that language version): each iteration has its own `v`,
so `holder` keeps the element it was taken from. -/
def GetVarByName.loopPerIteration (name : GoString) (strict : Bool) :
    List UefiVariable → (found : Bool) → (holder : Option UefiVariable) → Outcome UefiVariable
  | [], _, holder =>
    match holder with
    | some v => .ok v
    | none => .error "could not locate variable"
  | v :: rest, found, holder =>
    if name = v.Name then
      if !strict then .ok v
      else if found then .error "found more than one variable with name "
      else GetVarByName.loopPerIteration name strict rest true (some v)
    else GetVarByName.loopPerIteration name strict rest found holder

/-- Go `GetVarByName` (windows), on the list returned by `GetAllVars`. -/
def GetVarByName (varList : List UefiVariable) (name : GoString) (strict : Bool) :
    Outcome UefiVariable :=
  GetVarByName.loop name strict varList UefiVariable.zero false false

end Windows

/-! ## `generic.go`: accessors

The accessors call the `getAttributeForVar`, `getRawValueForVar` and
`setRawValueForVar` of the platform the package is built for; the embedding takes that
function as an argument. -/

/-- Go `UefiVariable.Attributes`. -/
def UefiVariable.Attributes (getAttributeForVar : UefiVariable → Outcome Nat)
    (u : UefiVariable) : Outcome Nat :=
  getAttributeForVar u

/-- Go `UefiVariable.Raw`. -/
def UefiVariable.Raw (getRawValueForVar : UefiVariable → Outcome (List Byte))
    (u : UefiVariable) : Outcome (List Byte) :=
  getRawValueForVar u

/-- Go `UefiVariable.String`. -/
def UefiVariable.String (getRawValueForVar : UefiVariable → Outcome (List Byte))
    (u : UefiVariable) : Outcome GoString :=
  UefiVariable.Raw getRawValueForVar u

/-- Go `UefiVariable.SetRaw`. -/
def UefiVariable.SetRaw {ρ : Type} (setRawValueForVar : UefiVariable → List Byte → Nat → Outcome ρ)
    (u : UefiVariable) (value : List Byte) (attributes : Nat) : Outcome ρ :=
  setRawValueForVar u value attributes

/-- Go `UefiVariable.Uint`. -/
def UefiVariable.Uint (getRawValueForVar : UefiVariable → Outcome (List Byte))
    (u : UefiVariable) : Outcome Nat := do
  let rawData ← UefiVariable.Raw getRawValueForVar u
  match rawData.length with
  | 1 => do
    let b ← index rawData 0
    pure b.val
  | 2 => LittleEndian.Uint16 rawData
  | 3 => do
    let b0 ← index rawData 0
    let b1 ← index rawData 1
    let b2 ← index rawData 2
    pure (b0.val + (b1.val <<< 8) + (b2.val <<< 16))
  | 4 => BigEndian.Uint32 rawData
  | 8 => BigEndian.Uint64 rawData
  | _ => .error "unable to convert array to uint64"

/-! ## `github.com/google/uuid`: text form -/

/-- The digit of `encoding/hex`'s table `"0123456789abcdef"` for a value below 16. -/
def hexDigit (n : Nat) : Byte :=
  if n < 10 then toByte (0x30 + n) else toByte (0x61 + (n - 10))

/-- Go `hex.Encode`: two lower-case digits per byte, the high nibble first. -/
def hexEncode (src : List Byte) : GoString :=
  (src.map (fun b => [hexDigit (b.val / 16), hexDigit (b.val % 16)])).flatten

/-- Method `g.String()`: the form `xxxxxxxx-xxxx-xxxx-xxxx-xxxxxxxxxxxx`. -/
def UUID.String (g : UUID) : GoString :=
  hexEncode (g.bytes.take 4) ++ lit "-" ++ hexEncode ((g.bytes.take 6).drop 4) ++ lit "-" ++
    hexEncode ((g.bytes.take 8).drop 6) ++ lit "-" ++ hexEncode ((g.bytes.take 10).drop 8) ++
    lit "-" ++ hexEncode (g.bytes.drop 10)

/-- The table `xvalues` of the uuid package: the value of a hexadecimal digit of either
case, 255 for any other byte. -/
def xvalues (c : Byte) : Nat :=
  if 0x30 ≤ c.val ∧ c.val ≤ 0x39 then c.val - 0x30
  else if 0x41 ≤ c.val ∧ c.val ≤ 0x46 then c.val - 0x41 + 10
  else if 0x61 ≤ c.val ∧ c.val ≤ 0x66 then c.val - 0x61 + 10
  else 255

/-- Go `xtob(x1, x2)`: the byte written by two hexadecimal digits, `none` when one of them
is not a digit. -/
def xtob (x1 x2 : Byte) : Option Byte :=
  if xvalues x1 ≠ 255 ∧ xvalues x2 ≠ 255 then some (toByte (xvalues x1 * 16 + xvalues x2))
  else none

/-- The digits at the given positions of `s`, pairwise through `xtob`; an error when a
pair is not hexadecimal. -/
def parseHexAt (s : GoString) : List Nat → Outcome (List Byte)
  | [] => .ok []
  | x :: xs => do
    let c1 ← index s x
    let c2 ← index s (x + 1)
    match xtob c1 c2 with
    | none => .error "invalid UUID format"
    | some v => do
      let rest ← parseHexAt s xs
      pure (v :: rest)

/-- Go `strings.EqualFold(s, "urn:uuid:")`.  The right-hand side has only ASCII letters
none of which folds with a non-ASCII rune, so the comparison is bytewise up to
ASCII case. -/
def equalFoldUrnPrefix (s : GoString) : Bool :=
  s.map (fun c => if 0x41 ≤ c.val ∧ c.val ≤ 0x5A then toByte (c.val + 0x20) else c) =
    lit "urn:uuid:"

/-- Go `uuid.Parse(s)`: the forms of 36, 36+9 (`urn:uuid:` prefix), 36+2 (one byte
dropped at the front, the last one ignored) and 32 bytes. -/
def UUID.Parse (s : GoString) : Outcome UUID := do
  let body ←
    if s.length = 36 then (pure (some s) : Outcome (Option GoString))
    else if s.length = 36 + 9 then
      if !equalFoldUrnPrefix (s.take 9) then .error "invalid urn prefix"
      else pure (some (s.drop 9))
    else if s.length = 36 + 2 then pure (some (s.drop 1))
    else if s.length = 32 then pure none
    else .error "invalid UUID length"
  match body with
  | none => do
    let bytes ← parseHexAt s ((List.range 16).map (fun i => i * 2))
    UUID.FromBytes bytes
  | some s => do
    let c8 ← index s 8
    let c13 ← index s 13
    let c18 ← index s 18
    let c23 ← index s 23
    if c8 ≠ 0x2D ∨ c13 ≠ 0x2D ∨ c18 ≠ 0x2D ∨ c23 ≠ 0x2D then .error "invalid UUID format"
    else do
      let bytes ← parseHexAt s [0, 2, 4, 6, 9, 11, 14, 16, 19, 21, 24, 26, 28, 30, 32, 34]
      UUID.FromBytes bytes

/-- Go `uuid.MustParse(s)`: panics where `Parse` returns an error. -/
def UUID.MustParse (s : GoString) : Outcome UUID :=
  match UUID.Parse s with
  | .ok g => .ok g
  | _ => .panic

/-! ## `strings` and `path/filepath` -/

/-- Go `strings.IndexByte(s, c)`: the position of the first `c` in `s`, `none` (−1 in Go)
when there is none. -/
def IndexByte : GoString → Byte → Option Nat
  | [], _ => none
  | b :: t, c => if b = c then some 0 else (IndexByte t c).map (fun i => i + 1)

/-- Go `strings.SplitN(s, "-", 2)`: the parts before and after the first `-`, or `s` alone
when it has none. -/
def SplitN2 (s : GoString) : List GoString :=
  match IndexByte s 0x2D with
  | some i => [s.take i, s.drop (i + 1)]
  | none => [s]

/-- Go `filepath.Base(path)` on a system whose separator is `/`: the last element of the
path, after removing trailing slashes. -/
def Base (path : GoString) : GoString :=
  if path = [] then lit "."
  else
    let path := (path.reverse.dropWhile (fun c => c = 0x2F)).reverse
    let path := (path.reverse.takeWhile (fun c => c ≠ 0x2F)).reverse
    if path = [] then lit "/" else path

/-! ## `linux.go` -/

namespace Linux

/-- The directory of the variable files. -/
def efivars : GoString := lit "/sys/firmware/efi/efivars/"

/-- The pseudo file system: the content of each file that can be opened. -/
abbrev Efivarfs := GoString → Option (List Byte)

/-- The body of the loop of Go `GetAllVars` (linux) for one match `m`; the last four
statements of Go `GetVarByName` are the same on `match`. -/
def GetAllVars.entry (m : GoString) : Outcome UefiVariable := do
  let fileName := Base m
  let parts := SplitN2 fileName
  let Name ← index parts 0
  let GUID ← UUID.MustParse (← index parts 1)
  pure { UefiVariable.zero with Name := Name, GUID := GUID }

/-- Go `GetAllVars` (linux), on the paths returned by
`filepath.Glob("/sys/firmware/efi/efivars/*")`. -/
def GetAllVars (matches_ : List GoString) : Outcome (List UefiVariable) :=
  matches_.mapM GetAllVars.entry

/-- The file name that Go `getFileForVariable` builds. -/
def getFileForVariable.fileName (uefiVar : UefiVariable) : GoString :=
  efivars ++ uefiVar.Name ++ lit "-" ++ uefiVar.GUID.String

/-- Go `getFileForVariable`: the content of the opened file, an error when it cannot
be opened.  Clearing the immutable flag before a read-write open does not change the
content and is not modelled. -/
def getFileForVariable (fs : Efivarfs) (uefiVar : UefiVariable) : Outcome (List Byte) :=
  match fs (getFileForVariable.fileName uefiVar) with
  | some content => .ok content
  | none => .error "open"

/-- Go `file.Read(b)` on a freshly opened file: up to `len(b)` bytes from the start are
stored into `b`; reading at the end of the file is the error `io.EOF`. -/
def fileRead (content b : List Byte) : Outcome (List Byte) :=
  if b.length = 0 then .ok b
  else if content.length = 0 then .error "EOF"
  else .ok (copy b content)

/-- Go `getAttributeForVar` (linux). -/
def getAttributeForVar (fs : Efivarfs) (uefiVar : UefiVariable) : Outcome Nat := do
  let file ← getFileForVariable fs uefiVar
  let attrBytes : List Byte := List.replicate 4 0
  let attrBytes ← fileRead file attrBytes
  LittleEndian.Uint32 attrBytes

/-- Go `getRawValueForVar` (linux): the file without its first four bytes. -/
def getRawValueForVar (fs : Efivarfs) (uefiVar : UefiVariable) : Outcome (List Byte) := do
  let file ← getFileForVariable fs uefiVar
  let data := file
  slice data 4 data.length

/-- Go `setRawValueForVar` (linux): the result is `rawData`, the bytes passed to
`file.Write`. -/
def setRawValueForVar (fs : Efivarfs) (uefiVar : UefiVariable) (value : List Byte)
    (attributes : Nat) : Outcome (List Byte) := do
  let _ ← getFileForVariable fs uefiVar
  let rawData : List Byte := List.replicate 4 0
  let rawData ← LittleEndian.PutUint32 rawData (attributes % 2 ^ 32)
  let rawData := rawData ++ value
  pure rawData

/-- Go `GetVarByNameAndGUID` (linux). -/
def GetVarByNameAndGUID (fs : Efivarfs) (name : GoString) (guid : UUID) :
    Outcome UefiVariable := do
  let ret := { UefiVariable.zero with Name := name, GUID := guid }
  let _ ← getFileForVariable fs ret
  pure ret

/-- Go `GetVarByName` (linux).  `glob` stands for `filepath.Glob` (an error for a
malformed pattern, otherwise the matching paths) and `clean` for `filepath.Clean`; the
file system decides whether the match can be opened. -/
def GetVarByName (glob : GoString → Outcome (List GoString)) (clean : GoString → GoString)
    (fs : Efivarfs) (name : GoString) (strict : Bool) : Outcome UefiVariable := do
  let matches_ ← glob (efivars ++ name ++ lit "-*")
  if strict ∧ matches_.length > 1 then .error "more than one match in strict mode"
  else if matches_.length = 0 then .error "could not locate variable"
  else do
    let m0 ← index matches_ 0
    let match_ := clean m0
    if !(efivars.isPrefixOf match_) then .error "bad name string specified"
    else
      match fs match_ with
      | none => .error "open"
      | some _ => GetAllVars.entry match_

end Linux

/-! ## Specification-side notions used by the statements -/

/-- The 4-byte little-endian encoding of a number below `2^32`. -/
def le32 (a : Nat) : List Byte :=
  [toByte a, toByte (a / 2 ^ 8), toByte (a / 2 ^ 16), toByte (a / 2 ^ 24)]

/-- The unsigned integer whose little-endian encoding is `bs`. -/
def leValue : List Byte → Nat
  | [] => 0
  | b :: t => b.val + 2 ^ 8 * leValue t

/-- The DWORD stored little-endian at `off` (bytes past the end count as 0). -/
def dwordAt (s : List Byte) (off : Nat) : Nat :=
  leValue [s.getD off 0, s.getD (off + 1) 0, s.getD (off + 2) 0, s.getD (off + 3) 0]

/-- The UTF-16LE code units of a byte string, two bytes each, low byte first. -/
def codeUnits : List Byte → List Nat
  | lo :: hi :: t => (lo.val + 2 ^ 8 * hi.val) :: codeUnits t
  | _ => []

/-- A string without one trailing NUL byte, when it ends in one. -/
def dropTrailingNul (s : GoString) : GoString :=
  if s.getLast? = some 0 then s.dropLast else s

/-- The GUID field of the record at `off`: the 16 bytes at `off+16 .. off+32`. -/
def guidField (stream : List Byte) (off : Nat) : List Byte :=
  (stream.take (off + 32)).drop (off + 16)

/-- The name field of the record at `off`: the bytes from `off+32` up to
`off+ValueOffset`. -/
def nameField (stream : List Byte) (off : Nat) : List Byte :=
  (stream.take (off + dwordAt stream (off + 4))).drop (off + 32)

/-- The value field of the record at `off`: the `ValueLength` bytes from
`off+ValueOffset`. -/
def valueField (stream : List Byte) (off : Nat) : List Byte :=
  (stream.take (off + dwordAt stream (off + 4) + dwordAt stream (off + 8))).drop
    (off + dwordAt stream (off + 4))

/-- The name written in a name field: the decoding of all its code units but the last,
without one trailing NUL. -/
def nameOfField (field : List Byte) : GoString :=
  dropTrailingNul (stringOfRunes (utf16Decode (codeUnits field).dropLast))

/-- A complete record at `off`, as the parser's contract words it: the 32-byte header
lies in the buffer, `ValueOffset ≥ 34` (the name field holds at least its terminator),
and the value lies in the buffer. -/
def CompleteRecord (stream : List Byte) (off : Nat) : Prop :=
  off + 32 ≤ stream.length ∧ 34 ≤ dwordAt stream (off + 4) ∧
    off + dwordAt stream (off + 4) + dwordAt stream (off + 8) ≤ stream.length

instance (stream : List Byte) (off : Nat) : Decidable (CompleteRecord stream off) := by
  unfold CompleteRecord; infer_instance

/-- A complete record whose name field holds at least one code unit before its
terminator (`ValueOffset ≥ 36`).  These are the records on which
`getUefiVariableFromByteStream` returns. -/
def AcceptedRecord (stream : List Byte) (off : Nat) : Prop :=
  off + 32 ≤ stream.length ∧ 36 ≤ dwordAt stream (off + 4) ∧
    off + dwordAt stream (off + 4) + dwordAt stream (off + 8) ≤ stream.length

instance (stream : List Byte) (off : Nat) : Decidable (AcceptedRecord stream off) := by
  unfold AcceptedRecord; infer_instance

/-- A chain of complete records: one at `off`, then one at each offset of the list, each
but the last with a positive `NextOffset` that is the distance to the next one, the last
with `NextOffset` 0. -/
def IsChain (stream : List Byte) : Nat → List Nat → Prop
  | off, [] => CompleteRecord stream off ∧ dwordAt stream off = 0
  | off, off' :: rest =>
    CompleteRecord stream off ∧ 0 < dwordAt stream off ∧
      off' = off + dwordAt stream off ∧ IsChain stream off' rest

/-- Whether a list of offsets continues a chain of complete records from `off`,
computed. -/
def IsChain.decide (stream : List Byte) : (off : Nat) → (offs : List Nat) →
    Decidable (IsChain stream off offs)
  | off, [] => by unfold IsChain; exact inferInstance
  | off, off' :: rest => by
    unfold IsChain
    exact @instDecidableAnd _ _ inferInstance
      (@instDecidableAnd _ _ inferInstance
        (@instDecidableAnd _ _ inferInstance (IsChain.decide stream off' rest)))

instance (stream : List Byte) (off : Nat) (offs : List Nat) :
    Decidable (IsChain stream off offs) := IsChain.decide stream off offs

/-- A chain as `IsChain`, every record of which has a non-empty name
(`ValueOffset ≥ 36`). -/
def IsAcceptedChain (stream : List Byte) : Nat → List Nat → Prop
  | off, [] => AcceptedRecord stream off ∧ dwordAt stream off = 0
  | off, off' :: rest =>
    AcceptedRecord stream off ∧ 0 < dwordAt stream off ∧
      off' = off + dwordAt stream off ∧ IsAcceptedChain stream off' rest

/-- Whether a list of offsets continues a chain of records with non-empty names from
`off`, computed. -/
def IsAcceptedChain.decide (stream : List Byte) : (off : Nat) → (offs : List Nat) →
    Decidable (IsAcceptedChain stream off offs)
  | off, [] => by unfold IsAcceptedChain; exact inferInstance
  | off, off' :: rest => by
    unfold IsAcceptedChain
    exact @instDecidableAnd _ _ inferInstance
      (@instDecidableAnd _ _ inferInstance
        (@instDecidableAnd _ _ inferInstance (IsAcceptedChain.decide stream off' rest)))

instance (stream : List Byte) (off : Nat) (offs : List Nat) :
    Decidable (IsAcceptedChain stream off offs) := IsAcceptedChain.decide stream off offs

/-! ## Sample inputs -/

/-- An enumeration buffer with two records: `A` (value `01 02`, attributes 7) at offset
0 with `NextOffset` 40, and `B` (value `09`, attributes 3) at offset 40, the last. -/
def twoRecords : List Byte :=
  [40, 0, 0, 0, 36, 0, 0, 0, 2, 0, 0, 0, 7, 0, 0, 0,
   0x61, 0xdf, 0xe4, 0x8b, 0xca, 0x93, 0xd2, 0x11, 0xaa, 0x0d, 0x00, 0xe0, 0x98, 0x03, 0x2b, 0x8c,
   0x41, 0, 0, 0, 1, 2, 0, 0,
   0, 0, 0, 0, 36, 0, 0, 0, 1, 0, 0, 0, 3, 0, 0, 0,
   0x61, 0xdf, 0xe4, 0x8b, 0xca, 0x93, 0xd2, 0x11, 0xaa, 0x0d, 0x00, 0xe0, 0x98, 0x03, 0x2b, 0x8c,
   0x42, 0, 0, 0, 9]

/-- A buffer with one record whose name field is only the terminator
(`ValueOffset` 34), value `01 02`, attributes 7. -/
def emptyNameRecord : List Byte :=
  [0, 0, 0, 0, 34, 0, 0, 0, 2, 0, 0, 0, 7, 0, 0, 0,
   0x61, 0xdf, 0xe4, 0x8b, 0xca, 0x93, 0xd2, 0x11, 0xaa, 0x0d, 0x00, 0xe0, 0x98, 0x03, 0x2b, 0x8c,
   0, 0, 1, 2]

/-- A buffer of two records, the second of which (at offset 40) has a name field that
is only the terminator. -/
def emptyNameSecond : List Byte :=
  [40, 0, 0, 0, 36, 0, 0, 0, 2, 0, 0, 0, 7, 0, 0, 0,
   0x61, 0xdf, 0xe4, 0x8b, 0xca, 0x93, 0xd2, 0x11, 0xaa, 0x0d, 0x00, 0xe0, 0x98, 0x03, 0x2b, 0x8c,
   0x41, 0, 0, 0, 1, 2, 0, 0,
   0, 0, 0, 0, 34, 0, 0, 0, 0, 0, 0, 0, 3, 0, 0, 0,
   0x61, 0xdf, 0xe4, 0x8b, 0xca, 0x93, 0xd2, 0x11, 0xaa, 0x0d, 0x00, 0xe0, 0x98, 0x03, 0x2b, 0x8c,
   0, 0]

/-- A buffer with a chain of two complete records: the first (at offset 0,
`NextOffset` 36) has a name field that is only the terminator, the second (at offset 36)
is the variable `B` with value `09`. -/
def emptyNameFirst : List Byte :=
  [36, 0, 0, 0, 34, 0, 0, 0, 2, 0, 0, 0, 7, 0, 0, 0,
   0x61, 0xdf, 0xe4, 0x8b, 0xca, 0x93, 0xd2, 0x11, 0xaa, 0x0d, 0x00, 0xe0, 0x98, 0x03, 0x2b, 0x8c,
   0, 0, 1, 2,
   0, 0, 0, 0, 36, 0, 0, 0, 1, 0, 0, 0, 3, 0, 0, 0,
   0x61, 0xdf, 0xe4, 0x8b, 0xca, 0x93, 0xd2, 0x11, 0xaa, 0x0d, 0x00, 0xe0, 0x98, 0x03, 0x2b, 0x8c,
   0x42, 0, 0, 0, 9]

/-! ## Basic facts about the run-time model -/

@[simp] theorem Outcome.ok_bind {α β : Type} (a : α) (f : α → Outcome β) :
    (Outcome.ok a >>= f) = f a := rfl

@[simp] theorem Outcome.error_bind {α β : Type} (m : String) (f : α → Outcome β) :
    (Outcome.error m >>= f) = Outcome.error m := rfl

@[simp] theorem Outcome.panic_bind {α β : Type} (f : α → Outcome β) :
    (Outcome.panic >>= f) = Outcome.panic := rfl

@[simp] theorem Outcome.pure_eq {α : Type} (a : α) : (pure a : Outcome α) = Outcome.ok a := rfl

theorem Outcome.bind_eq_ok {α β : Type} {x : Outcome α} {f : α → Outcome β} {b : β}
    (h : (x >>= f) = Outcome.ok b) : ∃ a, x = Outcome.ok a ∧ f a = Outcome.ok b := by
  cases x with
  | ok a => exact ⟨a, rfl, h⟩
  | error m => simp at h
  | panic => simp at h

theorem index_of_lt {α : Type} (s : List α) (i : Nat) (h : i < s.length) :
    index s i = .ok (s.get ⟨i, h⟩) := by
  simp [index, List.getElem?_eq_getElem h]

theorem index_eq_ok {α : Type} {s : List α} {i : Nat} {x : α} (h : index s i = .ok x) :
    i < s.length := by
  unfold index at h
  cases hs : s[i]? with
  | none => simp [hs] at h
  | some y => exact (List.getElem?_eq_some_iff.mp hs).1

theorem index_getD (s : List Byte) (i : Nat) (h : i < s.length) :
    index s i = .ok (s.getD i 0) := by
  simp [index, List.getD, List.getElem?_eq_getElem h]

theorem list_length_16 {α : Type} (d : List α) (h : d.length = 16) :
    ∃ a0 a1 a2 a3 a4 a5 a6 a7 a8 a9 a10 a11 a12 a13 a14 a15,
      d = [a0, a1, a2, a3, a4, a5, a6, a7, a8, a9, a10, a11, a12, a13, a14, a15] := by
  rcases d with _ | ⟨a0, _ | ⟨a1, _ | ⟨a2, _ | ⟨a3, _ | ⟨a4, _ | ⟨a5, _ | ⟨a6, _ | ⟨a7,
    _ | ⟨a8, _ | ⟨a9, _ | ⟨a10, _ | ⟨a11, _ | ⟨a12, _ | ⟨a13, _ | ⟨a14, _ | ⟨a15, _ | ⟨a16, t⟩⟩⟩⟩⟩⟩⟩⟩⟩⟩⟩⟩⟩⟩⟩⟩⟩ <;>
    simp at h
  exact ⟨a0, a1, a2, a3, a4, a5, a6, a7, a8, a9, a10, a11, a12, a13, a14, a15, rfl⟩

/-! ## GUID byte order (Windows) -/

theorem getGUIDFromByteSlice_sixteen
    (a0 a1 a2 a3 a4 a5 a6 a7 a8 a9 a10 a11 a12 a13 a14 a15 : Byte) :
    Windows.getGUIDFromByteSlice
        [a0, a1, a2, a3, a4, a5, a6, a7, a8, a9, a10, a11, a12, a13, a14, a15] =
      .ok ⟨[a3, a2, a1, a0, a5, a4, a7, a6, a8, a9, a10, a11, a12, a13, a14, a15], rfl⟩ := by
  simp [Windows.getGUIDFromByteSlice, index, copy, UUID.FromBytes]

/-- C3. For every 16-byte slice `d` in the firmware layout, `getGUIDFromByteSlice d`
succeeds, and `getWindowsGUID` of its result has `Data1` the little-endian uint32 of
`d[0..4]`, `Data2` and `Data3` the little-endian uint16 of `d[4..6]` and `d[6..8]`, and
`Data4 = d[8..16]`. -/
theorem guid_byte_order_round_trip (d : List Byte) (h : d.length = 16) :
    ∃ g d1 d2 d3, Windows.getGUIDFromByteSlice d = .ok g ∧
      LittleEndian.Uint32 (d.take 4) = .ok d1 ∧
      LittleEndian.Uint16 ((d.take 6).drop 4) = .ok d2 ∧
      LittleEndian.Uint16 ((d.take 8).drop 6) = .ok d3 ∧
      Windows.getWindowsGUID g = .ok ⟨d1, d2, d3, d.drop 8⟩ := by
  obtain ⟨a0, a1, a2, a3, a4, a5, a6, a7, a8, a9, a10, a11, a12, a13, a14, a15, rfl⟩ :=
    list_length_16 d h
  refine ⟨_, a0.val + a1.val * 2 ^ 8 + a2.val * 2 ^ 16 + a3.val * 2 ^ 24,
    a4.val + a5.val * 2 ^ 8, a6.val + a7.val * 2 ^ 8,
    getGUIDFromByteSlice_sixteen _ _ _ _ _ _ _ _ _ _ _ _ _ _ _ _, ?_, ?_, ?_, ?_⟩
  · simp [LittleEndian.Uint32, index]
  · simp [LittleEndian.Uint16, index]
  · simp [LittleEndian.Uint16, index]
  · simp [Windows.getWindowsGUID, UUID.MarshalBinary, slice, BigEndian.Uint32,
      BigEndian.Uint16, index]

theorem guid_byte_order_round_trip_witness :
    ∃ g d1 d2 d3,
      Windows.getGUIDFromByteSlice
        [0x61, 0xdf, 0xe4, 0x8b, 0xca, 0x93, 0xd2, 0x11, 0xaa, 0x0d, 0x00, 0xe0, 0x98, 0x03,
          0x2b, 0x8c] = .ok g ∧
      LittleEndian.Uint32 (List.take 4
        [0x61, 0xdf, 0xe4, 0x8b, 0xca, 0x93, 0xd2, 0x11, 0xaa, 0x0d, 0x00, 0xe0, 0x98, 0x03,
          0x2b, 0x8c]) = .ok d1 ∧
      LittleEndian.Uint16 (List.drop 4 (List.take 6
        [0x61, 0xdf, 0xe4, 0x8b, 0xca, 0x93, 0xd2, 0x11, 0xaa, 0x0d, 0x00, 0xe0, 0x98, 0x03,
          0x2b, 0x8c])) = .ok d2 ∧
      LittleEndian.Uint16 (List.drop 6 (List.take 8
        [0x61, 0xdf, 0xe4, 0x8b, 0xca, 0x93, 0xd2, 0x11, 0xaa, 0x0d, 0x00, 0xe0, 0x98, 0x03,
          0x2b, 0x8c])) = .ok d3 ∧
      Windows.getWindowsGUID g = .ok ⟨d1, d2, d3, List.drop 8
        [0x61, 0xdf, 0xe4, 0x8b, 0xca, 0x93, 0xd2, 0x11, 0xaa, 0x0d, 0x00, 0xe0, 0x98, 0x03,
          0x2b, 0x8c]⟩ :=
  guid_byte_order_round_trip _ (by decide)

/-! ## Linux write/read round trip -/

theorem toByte_val (n : Nat) : (toByte n).val = n % 256 := rfl

theorem le32_value (a : Nat) (h : a < 2 ^ 32) :
    LittleEndian.Uint32 (le32 a) = .ok a := by
  simp [LittleEndian.Uint32, index, le32, toByte_val]
  omega

/-- C2. For every `value` and every `attributes < 2^32`, on a variable whose file can
be opened, `setRawValueForVar` writes the 4-byte little-endian encoding of `attributes`
followed by `value`; and on a file holding exactly those bytes `getRawValueForVar`
returns `value` and `getAttributeForVar` returns `attributes`. -/
theorem linux_write_read_round_trip (fs : Linux.Efivarfs) (uefiVar : UefiVariable)
    (old value : List Byte) (attributes : Nat) (hattr : attributes < 2 ^ 32)
    (hopen : fs (Linux.getFileForVariable.fileName uefiVar) = some old) :
    Linux.setRawValueForVar fs uefiVar value attributes = .ok (le32 attributes ++ value) ∧
    LittleEndian.Uint32 (le32 attributes) = .ok attributes ∧
    ∀ fs' : Linux.Efivarfs,
      fs' (Linux.getFileForVariable.fileName uefiVar) = some (le32 attributes ++ value) →
      Linux.getRawValueForVar fs' uefiVar = .ok value ∧
      Linux.getAttributeForVar fs' uefiVar = .ok attributes := by
  refine ⟨?_, le32_value attributes hattr, ?_⟩
  · rw [Linux.setRawValueForVar, Nat.mod_eq_of_lt hattr]
    simp [Linux.getFileForVariable, hopen, LittleEndian.PutUint32, index, le32]
  · intro fs' h'
    constructor
    · simp [Linux.getRawValueForVar, Linux.getFileForVariable, h', slice, le32]
    · have := le32_value attributes hattr
      simp [Linux.getAttributeForVar, Linux.getFileForVariable, h', Linux.fileRead, copy, le32]
      simpa [le32] using this

theorem linux_write_read_round_trip_witness :
    Linux.setRawValueForVar (fun _ => some [7, 0, 0, 0, 1]) UefiVariable.zero [0xAA, 0xBB]
        0x80000007 = .ok (le32 0x80000007 ++ [0xAA, 0xBB]) ∧
    LittleEndian.Uint32 (le32 0x80000007) = .ok 0x80000007 ∧
    ∀ fs' : Linux.Efivarfs,
      fs' (Linux.getFileForVariable.fileName UefiVariable.zero) =
        some (le32 0x80000007 ++ [0xAA, 0xBB]) →
      Linux.getRawValueForVar fs' UefiVariable.zero = .ok [0xAA, 0xBB] ∧
      Linux.getAttributeForVar fs' UefiVariable.zero = .ok 0x80000007 :=
  linux_write_read_round_trip (fun _ => some [7, 0, 0, 0, 1]) UefiVariable.zero [7, 0, 0, 0, 1]
    [0xAA, 0xBB] 0x80000007 (by decide) rfl

/-! ## `Uint`: byte order of the supported lengths -/

theorem Uint_short_little_endian (getRaw : UefiVariable → Outcome (List Byte))
    (u : UefiVariable) (rawData : List Byte) (hraw : getRaw u = .ok rawData)
    (hlen : rawData.length = 1 ∨ rawData.length = 2 ∨ rawData.length = 3) :
    UefiVariable.Uint getRaw u = .ok (leValue rawData) := by
  rcases rawData with _ | ⟨b0, _ | ⟨b1, _ | ⟨b2, _ | ⟨b3, t⟩⟩⟩⟩
  · simp at hlen
  · simp [UefiVariable.Uint, UefiVariable.Raw, hraw, index, leValue]
  · simp [UefiVariable.Uint, UefiVariable.Raw, hraw, index, leValue, LittleEndian.Uint16]
    omega
  · simp [UefiVariable.Uint, UefiVariable.Raw, hraw, index, leValue, Nat.shiftLeft_eq]
    omega
  · simp at hlen

theorem Uint_long_big_endian (getRaw : UefiVariable → Outcome (List Byte))
    (u : UefiVariable) (rawData : List Byte) (hraw : getRaw u = .ok rawData)
    (hlen : rawData.length = 4 ∨ rawData.length = 8) :
    UefiVariable.Uint getRaw u = .ok (leValue rawData.reverse) := by
  rcases rawData with _ | ⟨b0, _ | ⟨b1, _ | ⟨b2, _ | ⟨b3, _ | ⟨b4, _ | ⟨b5, _ | ⟨b6, _ | ⟨b7,
    _ | ⟨b8, t⟩⟩⟩⟩⟩⟩⟩⟩⟩ <;> simp at hlen
  · simp [UefiVariable.Uint, UefiVariable.Raw, hraw, index, leValue, BigEndian.Uint32]
    omega
  · simp [UefiVariable.Uint, UefiVariable.Raw, hraw, index, leValue, BigEndian.Uint64]
    omega

/-- C7, at the failing input: the 4-byte raw value `01 00 00 00` is the little-endian
encoding of 1, and `Uint` returns 16777216 (the big-endian reading). -/
theorem Uint_four_bytes_not_little_endian :
    UefiVariable.Uint Windows.getRawValueForVar
        ⟨UUID.zero, lit "x", .ptr (some ⟨[1, 0, 0, 0], 7⟩)⟩ = .ok 16777216 ∧
      leValue [1, 0, 0, 0] = 1 ∧ le32 1 = [1, 0, 0, 0] := by
  decide

theorem Uint_eight_bytes_not_little_endian :
    UefiVariable.Uint Windows.getRawValueForVar
        ⟨UUID.zero, lit "x", .ptr (some ⟨[1, 0, 0, 0, 0, 0, 0, 0], 7⟩)⟩ =
        .ok 72057594037927936 ∧
      leValue [1, 0, 0, 0, 0, 0, 0, 0] = 1 := by
  decide

/-! ## Windows accessors and the private data -/

/-- C9, at the failing input: on a variable whose `private` field is the nil interface
(a `UefiVariable` with only `Name` and `GUID` set) both accessors panic; they do not
return the error "no variable data". -/
theorem accessors_panic_without_private_data :
    Windows.getAttributeForVar ⟨UUID.zero, lit "BootOrder", .nilIface⟩ = .panic ∧
      Windows.getRawValueForVar ⟨UUID.zero, lit "BootOrder", .nilIface⟩ = .panic ∧
      UefiVariable.Attributes Windows.getAttributeForVar
        ⟨UUID.zero, lit "BootOrder", .nilIface⟩ ≠ .error "no variable data" := by
  decide

theorem accessors_nil_interface (u : UefiVariable) (h : u.priv = .nilIface) :
    Windows.getAttributeForVar u = .panic ∧ Windows.getRawValueForVar u = .panic := by
  simp [Windows.getAttributeForVar, Windows.getRawValueForVar, h]

theorem accessors_nil_pointer (u : UefiVariable) (h : u.priv = .ptr none) :
    Windows.getAttributeForVar u = .error "no variable data" ∧
      Windows.getRawValueForVar u = .error "no variable data" := by
  simp [Windows.getAttributeForVar, Windows.getRawValueForVar, h]

theorem accessors_stored_data (u : UefiVariable) (data : variablePrivateData)
    (h : u.priv = .ptr (some data)) :
    Windows.getAttributeForVar u = .ok data.Attributes ∧
      Windows.getRawValueForVar u = .ok data.Value := by
  simp [Windows.getAttributeForVar, Windows.getRawValueForVar, h]

/-! ## The counted string of the variable name (Windows) -/

theorem getWindowsUnicodeString_length (str : GoString) (h : (0 : Byte) ∉ str) :
    Windows.getWindowsUnicodeString str =
      .ok ⟨(((utf16Encode (runesOfString str)).length + 1) * 2) % 2 ^ 16,
        (((utf16Encode (runesOfString str)).length + 1) * 2) % 2 ^ 16,
        utf16Encode (runesOfString str) ++ [0]⟩ := by
  cases hu : utf16Encode (runesOfString str) <;>
    simp [Windows.getWindowsUnicodeString, UTF16FromString, h, hu, index]

theorem getWindowsUnicodeString_embedded_nul (str : GoString) (h : (0 : Byte) ∈ str) :
    Windows.getWindowsUnicodeString str = .error "invalid argument" := by
  simp [Windows.getWindowsUnicodeString, UTF16FromString, h]

/-- C10, at the failing input: the name "A" has one UTF-16 code unit, so the claimed
`Length` is 2; `getWindowsUnicodeString` returns `Length` 4, counting the terminating
null that `UTF16FromString` appends. -/
theorem getWindowsUnicodeString_counts_terminator :
    utf16Encode (runesOfString (lit "A")) = [65] ∧
      Windows.getWindowsUnicodeString (lit "A") = .ok ⟨4, 4, [65, 0]⟩ := by
  decide

/-! ## `GetVarByName` in strict mode (Windows) -/

/-- The strict loop by the number of variables that carry the name (counting one already
found): none gives the error, one gives the last element stored into the loop variable,
more give the error. -/
theorem GetVarByName_loop_strict (name : GoString) (l : List UefiVariable) :
    ∀ (v : UefiVariable) (found : Bool),
      Windows.GetVarByName.loop name true l v found found =
        if (l.filter (fun x => name = x.Name)).length + (if found then 1 else 0) = 0 then
          .error "could not locate variable"
        else if (l.filter (fun x => name = x.Name)).length + (if found then 1 else 0) = 1 then
          .ok ((v :: l).getLast (by simp))
        else .error "found more than one variable with name " := by
  induction l with
  | nil => intro v found; cases found <;> simp [Windows.GetVarByName.loop]
  | cons x rest ih =>
    intro v found
    by_cases hx : name = x.Name
    · cases found
      · rw [Windows.GetVarByName.loop]
        simp only [if_pos hx]
        rw [ih]
        by_cases h0 : (rest.filter (fun x => name = x.Name)).length = 0
        · simp [List.filter_cons, hx, h0]
        · simp [List.filter_cons, hx, h0]
      · rw [Windows.GetVarByName.loop]
        simp [List.filter_cons, hx]
    · rw [Windows.GetVarByName.loop]
      simp only [if_neg hx]
      rw [ih]
      simp [List.filter_cons, hx]

theorem GetVarByName_strict_unique_returns_last (varList : List UefiVariable)
    (name : GoString) (h : (varList.filter (fun x => name = x.Name)).length = 1) :
    ∃ hne : varList ≠ [], Windows.GetVarByName varList name true = .ok (varList.getLast hne) := by
  have hne : varList ≠ [] := by
    rintro rfl
    simp at h
  refine ⟨hne, ?_⟩
  rw [Windows.GetVarByName, GetVarByName_loop_strict]
  simp [h, List.getLast_cons hne]

theorem GetVarByName_strict_error (varList : List UefiVariable) (name : GoString)
    (h : (varList.filter (fun x => name = x.Name)).length ≠ 1) :
    ∃ msg, Windows.GetVarByName varList name true = .error msg := by
  rw [Windows.GetVarByName, GetVarByName_loop_strict]
  by_cases h0 : (varList.filter (fun x => name = x.Name)).length = 0
  · rw [if_pos (by simpa using h0)]
    exact ⟨_, rfl⟩
  · rw [if_neg (by simpa using h0), if_neg (by simpa using h)]
    exact ⟨_, rfl⟩

theorem GetVarByName_loopPerIteration_no_match (name : GoString) (strict : Bool) :
    ∀ (l : List UefiVariable) (found : Bool) (holder : Option UefiVariable),
      l.filter (fun x => name = x.Name) = [] →
      Windows.GetVarByName.loopPerIteration name strict l found holder =
        match holder with
        | some v => .ok v
        | none => .error "could not locate variable" := by
  intro l
  induction l with
  | nil => intro found holder _; cases holder <;> simp [Windows.GetVarByName.loopPerIteration]
  | cons x rest ih =>
    intro found holder h
    by_cases hx : name = x.Name
    · simp [List.filter_cons, hx] at h
    · rw [Windows.GetVarByName.loopPerIteration, if_neg hx]
      exact ih found holder (by simpa [List.filter_cons, hx] using h)

/-- With per-iteration loop variables the strict lookup returns the unique variable of
that name, wherever it sits in the list. -/
theorem GetVarByName_loopPerIteration_unique (name : GoString) (v : UefiVariable) :
    ∀ (l : List UefiVariable), l.filter (fun x => name = x.Name) = [v] →
      Windows.GetVarByName.loopPerIteration name true l false none = .ok v := by
  intro l
  induction l with
  | nil => intro h; simp at h
  | cons x rest ih =>
    intro h
    by_cases hx : name = x.Name
    · simp only [List.filter_cons, hx, decide_True, if_true, List.cons.injEq] at h
      obtain ⟨rfl, hrest⟩ := h
      rw [Windows.GetVarByName.loopPerIteration, if_pos hx]
      simp only [Bool.not_true, Bool.false_eq_true, if_false]
      rw [GetVarByName_loopPerIteration_no_match name true rest true (some x)
        (by simpa [hx] using hrest)]
    · rw [Windows.GetVarByName.loopPerIteration, if_neg hx]
      exact ih (by simpa [List.filter_cons, hx] using h)

/-- C4, at the failing input: in the list `[BootOrder, Timeout]` exactly one variable is
named `BootOrder`, and `GetVarByName("BootOrder", true)` returns the variable `Timeout`,
the last one of the list, because the returned pointer addresses the loop variable. -/
theorem GetVarByName_strict_returns_last_element :
    Windows.GetVarByName
        [⟨UUID.zero, lit "BootOrder", .ptr (some ⟨[1, 0], 7⟩)⟩,
          ⟨UUID.zero, lit "Timeout", .ptr (some ⟨[5, 0], 7⟩)⟩]
        (lit "BootOrder") true =
      .ok ⟨UUID.zero, lit "Timeout", .ptr (some ⟨[5, 0], 7⟩)⟩ := by
  decide

/-! ## File names of variables (Linux) -/

/-- C6, at the failing input: the file name built for the variable `dump-type0` (a name
with a `-`) does not parse back; splitting at the first `-` leaves `type0-` in front of
the GUID text and `uuid.MustParse` panics. -/
theorem GetAllVars_panics_on_hyphenated_name :
    Linux.GetAllVars
        [Linux.getFileForVariable.fileName
          ⟨⟨[0x8b, 0xe4, 0xdf, 0x61, 0x93, 0xca, 0x11, 0xd2, 0xaa, 0x0d, 0x00, 0xe0, 0x98,
            0x03, 0x2b, 0x8c], rfl⟩, lit "dump-type0", .nilIface⟩] = .panic := by
  decide

/-! ## The record parser (Windows) -/

theorem getULong_eq (s : List Byte) (off : Nat) (h : off + 4 ≤ s.length) :
    Windows.getULong s off = .ok (dwordAt s off) := by
  have h0 := index_getD s off (by omega)
  have h1 := index_getD s (off + 1) (by omega)
  have h2 := index_getD s (off + 2) (by omega)
  have h3 := index_getD s (off + 3) (by omega)
  simp only [Windows.getULong, h0, h1, h2, h3, Outcome.ok_bind, Outcome.pure_eq, dwordAt,
    leValue, Nat.shiftLeft_eq]
  congr 1
  omega

theorem getULong_eq_ok {s : List Byte} {off v : Nat} (h : Windows.getULong s off = .ok v) :
    off < s.length := by
  unfold Windows.getULong at h
  obtain ⟨b0, hb0, -⟩ := Outcome.bind_eq_ok h
  exact index_eq_ok hb0

theorem slice_eq {α : Type} (s : List α) (lo hi : Nat) (h1 : lo ≤ hi) (h2 : hi ≤ s.length) :
    slice s lo hi = .ok ((s.take hi).drop lo) := by
  simp [slice, h1, h2]

theorem slice_length {α : Type} (s : List α) (lo hi : Nat) (h2 : hi ≤ s.length) :
    ((s.take hi).drop lo).length = hi - lo := by
  simp [List.length_drop, List.length_take, Nat.min_eq_left h2]

theorem getGUIDFromByteSlice_ok (d : List Byte) (h : d.length = 16) :
    ∃ g, Windows.getGUIDFromByteSlice d = .ok g := by
  obtain ⟨a0, a1, a2, a3, a4, a5, a6, a7, a8, a9, a10, a11, a12, a13, a14, a15, rfl⟩ :=
    list_length_16 d h
  exact ⟨_, getGUIDFromByteSlice_sixteen _ _ _ _ _ _ _ _ _ _ _ _ _ _ _ _⟩

theorem codeUnits_length : ∀ (n : Nat) (l : List Byte), l.length = n →
    (codeUnits l).length = n / 2 := by
  intro n
  induction n using Nat.strong_induction_on with
  | _ n ih =>
    intro l hl
    rcases l with _ | ⟨a, _ | ⟨b, t⟩⟩
    · simp at hl; subst hl; simp [codeUnits]
    · simp at hl; subst hl; simp [codeUnits]
    · simp at hl
      have := ih (n - 2) (by omega) t (by omega)
      simp [codeUnits, this]
      omega

theorem readCodeUnits_eq (nameBuff : List Byte) : ∀ (count i : Nat),
    (i + count) * 2 ≤ nameBuff.length →
    Windows.readCodeUnits nameBuff count i =
      .ok ((codeUnits (nameBuff.drop (i * 2))).take count) := by
  intro count
  induction count with
  | zero => intro i _; simp [Windows.readCodeUnits]
  | succ c ih =>
    intro i h
    have hlo := index_of_lt nameBuff (i * 2) (by omega)
    have hhi := index_of_lt nameBuff (i * 2 + 1) (by omega)
    have hrest := ih (i + 1) (by omega)
    have hd : nameBuff.drop (i * 2) =
        nameBuff.get ⟨i * 2, by omega⟩ :: nameBuff.get ⟨i * 2 + 1, by omega⟩ ::
          nameBuff.drop ((i + 1) * 2) := by
      rw [List.drop_eq_getElem_cons (by omega : i * 2 < nameBuff.length),
        List.drop_eq_getElem_cons (by omega : i * 2 + 1 < nameBuff.length)]
      simp [Nat.add_mul]
    simp only [Windows.readCodeUnits, hlo, hhi, hrest, Outcome.ok_bind, Outcome.pure_eq, hd,
      codeUnits, List.take_succ_cons, Nat.shiftLeft_eq]
    congr 2
    omega

theorem utf16Decode_ne_nil : ∀ (units : List Nat), units ≠ [] → utf16Decode units ≠ [] := by
  intro units h
  rcases units with _ | ⟨r, _ | ⟨r2, rest⟩⟩
  · exact absurd rfl h
  · simp only [utf16Decode]; split <;> simp
  · simp only [utf16Decode]; split
    · simp
    · split <;> simp

theorem encodeRune_ne_nil (r : Nat) : encodeRune r ≠ [] := by
  unfold encodeRune
  repeat' split
  all_goals simp

theorem stringOfRunes_ne_nil (runes : List Nat) (h : runes ≠ []) : stringOfRunes runes ≠ [] := by
  rcases runes with _ | ⟨r, rest⟩
  · exact absurd rfl h
  · have := encodeRune_ne_nil r
    simp [stringOfRunes, this]

theorem indexInt_last {α : Type} (s : List α) (h : s ≠ []) :
    indexInt s ((s.length : Int) - 1) = .ok (s.getLast h) := by
  have hl : 0 < s.length := List.length_pos.mpr h
  have h0 : (0 : Int) ≤ (s.length : Int) - 1 := by omega
  have h1 : ((s.length : Int) - 1).toNat = s.length - 1 := by omega
  rw [indexInt, if_pos h0, h1, index_of_lt s (s.length - 1) (by omega)]
  simp [List.getLast_eq_getElem]

theorem dropTrailingNul_eq (s : GoString) (h : s ≠ []) :
    (if s.getLast h = 0 then s.take (s.length - 1) else s) = dropTrailingNul s := by
  simp [dropTrailingNul, List.getLast?_eq_getLast _ h, List.dropLast_eq_take]

theorem getUefiVariableFromByteStream_accepted (stream : List Byte) (off : Nat)
    (h : AcceptedRecord stream off) :
    ∃ g, Windows.getGUIDFromByteSlice (guidField stream off) = .ok g ∧
      Windows.getUefiVariableFromByteStream stream off =
        .ok (⟨g, nameOfField (nameField stream off),
            .ptr (some ⟨valueField stream off, dwordAt stream (off + 12)⟩)⟩,
          if dwordAt stream off = 0 then 0 else dwordAt stream off + off) := by
  obtain ⟨hhdr, h36, hfit⟩ := h
  have e0 := getULong_eq stream off (by omega)
  have e4 := getULong_eq stream (off + 4) (by omega)
  have e8 := getULong_eq stream (off + 8) (by omega)
  have e12 := getULong_eq stream (off + 12) (by omega)
  have sv := slice_eq stream (off + dwordAt stream (off + 4))
    (off + dwordAt stream (off + 4) + dwordAt stream (off + 8)) (by omega) hfit
  have sg := slice_eq stream (off + 16) (off + 32) (by omega) hhdr
  have sn := slice_eq stream (off + 32) (off + dwordAt stream (off + 4)) (by omega) (by omega)
  have hglen : (guidField stream off).length = 16 := by
    rw [guidField, slice_length stream (off + 16) (off + 32) hhdr]; omega
  obtain ⟨g, hg⟩ := getGUIDFromByteSlice_ok _ hglen
  have hnlen : (nameField stream off).length = dwordAt stream (off + 4) - 32 := by
    rw [nameField, slice_length stream (off + 32) (off + dwordAt stream (off + 4)) (by omega)]
    omega
  refine ⟨g, hg, ?_⟩
  rw [guidField] at hg
  have hn : ¬ ((((nameField stream off).length / 2 : Nat) : Int) - 1 < 0) := by omega
  have hcount : ((((nameField stream off).length / 2 : Nat) : Int) - 1).toNat =
      (nameField stream off).length / 2 - 1 := by omega
  have hunits := readCodeUnits_eq (nameField stream off)
    ((nameField stream off).length / 2 - 1) 0 (by omega)
  have hcl := codeUnits_length _ (nameField stream off) rfl
  have hdl : (codeUnits (nameField stream off)).take ((nameField stream off).length / 2 - 1) =
      (codeUnits (nameField stream off)).dropLast := by
    rw [List.dropLast_eq_take, hcl]
  have hune : (codeUnits (nameField stream off)).dropLast ≠ [] := by
    intro hnil
    have := congrArg List.length hnil
    simp [hcl] at this
    omega
  have hname := stringOfRunes_ne_nil _ (utf16Decode_ne_nil _ hune)
  rw [nameField] at hn hcount hunits hdl hname
  simp only [Windows.getUefiVariableFromByteStream, e0, e4, e8, e12, sv, sg, sn, hg,
    Outcome.ok_bind, Outcome.pure_eq, if_neg hn, hcount, hunits, Nat.zero_mul, List.drop_zero,
    hdl, indexInt_last _ hname]
  simp only [nameOfField, valueField, nameField, ← dropTrailingNul_eq _ hname]
  split <;> split <;> simp_all [UefiVariable.zero]

theorem getULong_ok_iff {s : List Byte} {off v : Nat} (h : Windows.getULong s off = .ok v) :
    off + 4 ≤ s.length ∧ v = dwordAt s off := by
  have hlen : off + 4 ≤ s.length := by
    unfold Windows.getULong at h
    obtain ⟨b0, -, h⟩ := Outcome.bind_eq_ok h
    obtain ⟨b1, -, h⟩ := Outcome.bind_eq_ok h
    obtain ⟨b2, -, h⟩ := Outcome.bind_eq_ok h
    obtain ⟨b3, hb3, -⟩ := Outcome.bind_eq_ok h
    have := index_eq_ok hb3
    omega
  rw [getULong_eq s off hlen] at h
  exact ⟨hlen, by injection h with h; exact h.symm⟩

theorem slice_ok_iff {α : Type} {s r : List α} {lo hi : Nat} (h : slice s lo hi = .ok r) :
    lo ≤ hi ∧ hi ≤ s.length ∧ r = (s.take hi).drop lo := by
  unfold slice at h
  split at h
  · rename_i hc
    injection h with h
    exact ⟨hc.1, hc.2, h.symm⟩
  · simp at h

theorem readCodeUnits_length (nameBuff : List Byte) : ∀ (count i : Nat) (units : List Nat),
    Windows.readCodeUnits nameBuff count i = .ok units → units.length = count := by
  intro count
  induction count with
  | zero =>
    intro i units h
    simp [Windows.readCodeUnits] at h
    simp [← h]
  | succ c ih =>
    intro i units h
    unfold Windows.readCodeUnits at h
    obtain ⟨lo, -, h⟩ := Outcome.bind_eq_ok h
    obtain ⟨hi, -, h⟩ := Outcome.bind_eq_ok h
    obtain ⟨rest, hrest, h⟩ := Outcome.bind_eq_ok h
    simp at h
    rw [← h]
    simp [ih _ _ hrest]

theorem indexInt_ok_ne_nil {α : Type} {s : List α} {i : Int} {x : α}
    (h : indexInt s i = .ok x) : s ≠ [] := by
  rintro rfl
  unfold indexInt at h
  split at h
  · simp [index] at h
  · simp at h

theorem getUefiVariableFromByteStream_ok_accepted {stream : List Byte} {off : Nat}
    {r : UefiVariable × Nat} (h : Windows.getUefiVariableFromByteStream stream off = .ok r) :
    AcceptedRecord stream off := by
  unfold Windows.getUefiVariableFromByteStream at h
  obtain ⟨n0, h0, h⟩ := Outcome.bind_eq_ok h
  obtain ⟨vo, h4, h⟩ := Outcome.bind_eq_ok h
  obtain ⟨vl, h8, h⟩ := Outcome.bind_eq_ok h
  obtain ⟨value, hv, h⟩ := Outcome.bind_eq_ok h
  obtain ⟨attrs, h12, h⟩ := Outcome.bind_eq_ok h
  obtain ⟨gb, hgb, h⟩ := Outcome.bind_eq_ok h
  obtain ⟨g, hg, h⟩ := Outcome.bind_eq_ok h
  obtain ⟨nameBuff, hnb, h⟩ := Outcome.bind_eq_ok h
  obtain ⟨-, rfl⟩ := getULong_ok_iff h4
  obtain ⟨-, rfl⟩ := getULong_ok_iff h8
  obtain ⟨-, hfit, -⟩ := slice_ok_iff hv
  obtain ⟨-, hhdr, -⟩ := slice_ok_iff hgb
  obtain ⟨h32, hvo, rfl⟩ := slice_ok_iff hnb
  have hlen := slice_length stream (off + 32) (off + dwordAt stream (off + 4)) hvo
  dsimp only at h
  by_cases hn : ((((List.drop (off + 32) (List.take (off + dwordAt stream (off + 4))
      stream)).length / 2 : Nat) : Int) - 1 < 0)
  · rw [if_pos hn] at h
    simp at h
  · rw [if_neg hn] at h
    obtain ⟨units, hu, h⟩ := Outcome.bind_eq_ok h
    obtain ⟨last, hl, h⟩ := Outcome.bind_eq_ok h
    have hul := readCodeUnits_length _ _ _ _ hu
    have hne := indexInt_ok_ne_nil hl
    have hunits : units ≠ [] := by
      rintro rfl
      simp [utf16Decode, stringOfRunes] at hne
    have hpos : 0 < units.length := List.length_pos.mpr hunits
    refine ⟨hhdr, ?_, hfit⟩
    omega

theorem getUefiVariableFromByteStream_ok_iff (stream : List Byte) (off : Nat) :
    (∃ r, Windows.getUefiVariableFromByteStream stream off = .ok r) ↔
      AcceptedRecord stream off := by
  constructor
  · rintro ⟨r, h⟩
    exact getUefiVariableFromByteStream_ok_accepted h
  · intro h
    obtain ⟨g, -, hp⟩ := getUefiVariableFromByteStream_accepted stream off h
    exact ⟨_, hp⟩

/-! ## The enumeration loop (Windows) -/

theorem GetAllVars_loop_accepted_chain (stream : List Byte) : ∀ (offs : List Nat) (off fuel : Nat)
    (acc : List UefiVariable), off ≠ 0 → IsAcceptedChain stream off offs → stream.length < fuel + off →
    ∃ vars, Windows.GetAllVars.loop stream fuel off acc = some (.ok (acc ++ vars)) ∧
      List.Forall₂ (fun o v => ∃ next, Windows.getUefiVariableFromByteStream stream o =
        .ok (v, next)) (off :: offs) vars := by
  intro offs
  induction offs with
  | nil =>
    intro off fuel acc hoff hchain hfuel
    obtain ⟨hwf, hlast⟩ := hchain
    obtain ⟨g, -, hp⟩ := getUefiVariableFromByteStream_accepted stream off hwf
    rw [if_pos hlast] at hp
    obtain ⟨hhdr, -, -⟩ := hwf
    obtain ⟨f, rfl⟩ : ∃ f, fuel = f + 2 := ⟨fuel - 2, by omega⟩
    refine ⟨[_], ?_, List.Forall₂.cons ⟨_, hp⟩ List.Forall₂.nil⟩
    simp [Windows.GetAllVars.loop, hoff, hp]
  | cons off' rest ih =>
    intro off fuel acc hoff hchain hfuel
    obtain ⟨hwf, hpos, hnext, hrest⟩ := hchain
    obtain ⟨g, -, hp⟩ := getUefiVariableFromByteStream_accepted stream off hwf
    have hnext' : dwordAt stream off + off = off' := by omega
    rw [if_neg (by omega), hnext'] at hp
    obtain ⟨hhdr, -, -⟩ := hwf
    obtain ⟨f, rfl⟩ : ∃ f, fuel = f + 1 := ⟨fuel - 1, by omega⟩
    obtain ⟨vars, hloop, hall⟩ := ih off' f (acc ++ [_]) (by omega) hrest (by omega)
    refine ⟨_ :: vars, ?_, List.Forall₂.cons ⟨_, hp⟩ hall⟩
    simp only [Windows.GetAllVars.loop, hp]
    simpa [hoff] using hloop

/-- On a chain of `k ≥ 1` records with non-empty names starting at offset 0 (`offs` lists
the offsets of the records after the first, so `k = offs.length + 1`), the loop of
`GetAllVars` ends within its `len(buffer) + 1` iterations and returns exactly `k`
variables, the i-th being the parse of the i-th record. -/
theorem GetAllVars_parses_accepted_chain (stream : List Byte) (offs : List Nat)
    (h : IsAcceptedChain stream 0 offs) :
    ∃ vars, Windows.GetAllVars stream = some (.ok vars) ∧ vars.length = offs.length + 1 ∧
      List.Forall₂ (fun o v => ∃ next, Windows.getUefiVariableFromByteStream stream o =
        .ok (v, next)) (0 :: offs) vars := by
  have key : ∃ vars, Windows.GetAllVars stream = some (.ok vars) ∧
      List.Forall₂ (fun o v => ∃ next, Windows.getUefiVariableFromByteStream stream o =
        .ok (v, next)) (0 :: offs) vars := by
    cases offs with
    | nil =>
      obtain ⟨hwf, hlast⟩ := h
      obtain ⟨g, -, hp⟩ := getUefiVariableFromByteStream_accepted stream 0 hwf
      rw [if_pos hlast] at hp
      obtain ⟨hhdr, -, -⟩ := hwf
      refine ⟨[_], ?_, List.Forall₂.cons ⟨_, hp⟩ List.Forall₂.nil⟩
      simp [Windows.GetAllVars, index_getD stream 0 (by omega), hp, Windows.GetAllVars.loop]
    | cons off' rest =>
      obtain ⟨hwf, hpos, hnext, hrest⟩ := h
      obtain ⟨g, -, hp⟩ := getUefiVariableFromByteStream_accepted stream 0 hwf
      have hnext' : dwordAt stream 0 + 0 = off' := by omega
      rw [if_neg (by omega), hnext'] at hp
      obtain ⟨hhdr, -, -⟩ := hwf
      obtain ⟨vars, hloop, hall⟩ := GetAllVars_loop_accepted_chain stream rest off'
        (stream.length + 1) ([] ++ [_]) (by omega) hrest (by omega)
      refine ⟨_ :: vars, ?_, List.Forall₂.cons ⟨_, hp⟩ hall⟩
      simp only [Windows.GetAllVars, index_getD stream 0 (by omega), hp]
      simpa using hloop
  obtain ⟨vars, hv, hall⟩ := key
  refine ⟨vars, hv, ?_, hall⟩
  simpa using hall.length_eq.symm

theorem GetAllVars_loop_total (buffer : List Byte) : ∀ (fuel off : Nat)
    (acc : List UefiVariable), 1 ≤ fuel →
    (off ≠ 0 → off < buffer.length → buffer.length + 1 ≤ fuel + off) →
    Windows.GetAllVars.loop buffer fuel off acc ≠ none := by
  intro fuel
  induction fuel with
  | zero => intro off acc h; omega
  | succ f ih =>
    intro off acc _ hinv
    rw [Windows.GetAllVars.loop]
    by_cases hoff : off = 0
    · simp [hoff]
    · rw [if_pos hoff]
      cases hp : Windows.getUefiVariableFromByteStream buffer off with
      | error msg => simp
      | panic => simp
      | ok r =>
        have hwf := getUefiVariableFromByteStream_ok_accepted hp
        obtain ⟨g, -, hp'⟩ := getUefiVariableFromByteStream_accepted buffer off hwf
        rw [hp] at hp'
        injection hp' with hr
        obtain ⟨hhdr, -, -⟩ := hwf
        have := hinv hoff (by omega)
        subst hr
        simp only
        apply ih
        · omega
        · intro h1 h2
          split at h1
          · exact absurd rfl h1
          · split
            · omega
            · omega

/-- The loop of `GetAllVars` ends within the iterations the model gives it, on every
buffer: the offset grows with each record parsed and a record lies inside the buffer
(no sum wraps in the 64-bit `uint` of the model). -/
theorem GetAllVars_total (buffer : List Byte) : Windows.GetAllVars buffer ≠ none := by
  unfold Windows.GetAllVars
  cases hi : index buffer 0 with
  | error msg => simp
  | panic => simp
  | ok b =>
    cases hp : Windows.getUefiVariableFromByteStream buffer 0 with
    | error msg => simp
    | panic => simp
    | ok r =>
      simp only
      apply GetAllVars_loop_total
      · omega
      · intro _ _
        omega

theorem GetAllVars_parses_accepted_chain_witness :
    IsAcceptedChain twoRecords 0 [40] ∧
    ∃ vars, Windows.GetAllVars twoRecords = some (.ok vars) ∧ vars.length = [40].length + 1 ∧
      List.Forall₂ (fun o v => ∃ next, Windows.getUefiVariableFromByteStream twoRecords o =
        .ok (v, next)) (0 :: [40]) vars :=
  ⟨by decide, GetAllVars_parses_accepted_chain twoRecords [40] (by decide)⟩

theorem GetAllVars_twoRecords :
    Windows.GetAllVars twoRecords = some (.ok
      [⟨⟨[0x8b, 0xe4, 0xdf, 0x61, 0x93, 0xca, 0x11, 0xd2, 0xaa, 0x0d, 0x00, 0xe0, 0x98, 0x03,
          0x2b, 0x8c], rfl⟩, lit "A", .ptr (some ⟨[1, 2], 7⟩)⟩,
        ⟨⟨[0x8b, 0xe4, 0xdf, 0x61, 0x93, 0xca, 0x11, 0xd2, 0xaa, 0x0d, 0x00, 0xe0, 0x98, 0x03,
          0x2b, 0x8c], rfl⟩, lit "B", .ptr (some ⟨[9], 3⟩)⟩]) := by
  decide

/-! ## Records with an empty name (Windows) -/

theorem getUefiVariableFromByteStream_empty_name (stream : List Byte) (off : Nat)
    (hhdr : off + 32 ≤ stream.length)
    (hvo : dwordAt stream (off + 4) = 34 ∨ dwordAt stream (off + 4) = 35)
    (hfit : off + dwordAt stream (off + 4) + dwordAt stream (off + 8) ≤ stream.length) :
    Windows.getUefiVariableFromByteStream stream off = .panic := by
  have e0 := getULong_eq stream off (by omega)
  have e4 := getULong_eq stream (off + 4) (by omega)
  have e8 := getULong_eq stream (off + 8) (by omega)
  have e12 := getULong_eq stream (off + 12) (by omega)
  have sv := slice_eq stream (off + dwordAt stream (off + 4))
    (off + dwordAt stream (off + 4) + dwordAt stream (off + 8)) (by omega) hfit
  have sg := slice_eq stream (off + 16) (off + 32) (by omega) hhdr
  have sn := slice_eq stream (off + 32) (off + dwordAt stream (off + 4)) (by omega) (by omega)
  have hglen : (guidField stream off).length = 16 := by
    rw [guidField, slice_length stream (off + 16) (off + 32) hhdr]; omega
  obtain ⟨g, hg⟩ := getGUIDFromByteSlice_ok _ hglen
  have hnlen : (nameField stream off).length = dwordAt stream (off + 4) - 32 := by
    rw [nameField, slice_length stream (off + 32) (off + dwordAt stream (off + 4)) (by omega)]
    omega
  rw [guidField] at hg
  have hn : ¬ ((((nameField stream off).length / 2 : Nat) : Int) - 1 < 0) := by omega
  have hcount : ((((nameField stream off).length / 2 : Nat) : Int) - 1).toNat = 0 := by omega
  rw [nameField] at hn hcount
  simp only [Windows.getUefiVariableFromByteStream, e0, e4, e8, e12, sv, sg, sn, hg,
    Outcome.ok_bind, Outcome.pure_eq, if_neg hn, hcount, Windows.readCodeUnits, utf16Decode,
    stringOfRunes]
  rfl

/-- C1, at the failing input: the buffer `emptyNameRecord` holds a complete record at
offset 0 in the sense of the claim (32-byte header present, `ValueOffset = 34 ≥ 34`,
value inside the buffer), and `getUefiVariableFromByteStream` panics on it instead of
returning a variable. -/
theorem getUefiVariableFromByteStream_panics_at_ValueOffset_34 :
    0 + 32 ≤ emptyNameRecord.length ∧ 34 ≤ dwordAt emptyNameRecord (0 + 4) ∧
      0 + dwordAt emptyNameRecord (0 + 4) + dwordAt emptyNameRecord (0 + 8) ≤
        emptyNameRecord.length ∧
      Windows.getUefiVariableFromByteStream emptyNameRecord 0 = .panic := by
  decide

/-- C5, at the failing input: the record at offset 40 of `emptyNameSecond` has a name
field of one code unit, the null terminator; `getUefiVariableFromByteStream` panics on
the out-of-range access `ret.Name[len(ret.Name)-1]` instead of returning the empty
name, and so does the whole enumeration. -/
theorem getUefiVariableFromByteStream_panics_on_terminator_only_name :
    nameField emptyNameSecond 40 = [0, 0] ∧ codeUnits (nameField emptyNameSecond 40) = [0] ∧
      Windows.getUefiVariableFromByteStream emptyNameSecond 40 = .panic ∧
      Windows.GetAllVars emptyNameSecond = some .panic := by
  decide

/-- The parse of a complete record with a non-empty name (`ValueOffset ≥ 36`): the
header words are read little-endian, the stored value is the value field, the stored
attributes are the `Attributes` word, the GUID is built from the GUID field, and the
name is the decoding of the name field without its terminator. -/
theorem getUefiVariableFromByteStream_complete_record (stream : List Byte) (off : Nat)
    (hhdr : off + 32 ≤ stream.length) (h36 : 36 ≤ dwordAt stream (off + 4))
    (hfit : off + dwordAt stream (off + 4) + dwordAt stream (off + 8) ≤ stream.length) :
    Windows.getULong stream (off + 4) = .ok (dwordAt stream (off + 4)) ∧
    Windows.getULong stream (off + 8) = .ok (dwordAt stream (off + 8)) ∧
    Windows.getULong stream (off + 12) = .ok (dwordAt stream (off + 12)) ∧
    ∃ v next, Windows.getUefiVariableFromByteStream stream off = .ok (v, next) ∧
      Windows.getRawValueForVar v = .ok (valueField stream off) ∧
      (valueField stream off).length = dwordAt stream (off + 8) ∧
      Windows.getAttributeForVar v = .ok (dwordAt stream (off + 12)) ∧
      Windows.getGUIDFromByteSlice (guidField stream off) = .ok v.GUID ∧
      v.Name = nameOfField (nameField stream off) ∧
      next = (if dwordAt stream off = 0 then 0 else dwordAt stream off + off) := by
  refine ⟨getULong_eq _ _ (by omega), getULong_eq _ _ (by omega), getULong_eq _ _ (by omega), ?_⟩
  obtain ⟨g, hg, hp⟩ := getUefiVariableFromByteStream_accepted stream off ⟨hhdr, h36, hfit⟩
  refine ⟨⟨g, nameOfField (nameField stream off),
      .ptr (some ⟨valueField stream off, dwordAt stream (off + 12)⟩)⟩,
    (if dwordAt stream off = 0 then 0 else dwordAt stream off + off), hp, ?_, ?_, ?_, hg, ?_, ?_⟩
  · simp only [Windows.getRawValueForVar]
  · rw [valueField, slice_length _ _ _ hfit]
    omega
  · simp only [Windows.getAttributeForVar]
  · simp only
  · simp only

/-! ## File names of variables (Linux): the names that do round-trip -/

theorem lit_dash : lit "-" = [0x2D] := by decide

theorem xvalues_hexDigit (n : Nat) (h : n < 16) : xvalues (hexDigit n) = n := by
  interval_cases n <;> decide

theorem hexDigit_ne_dash (n : Nat) (h : n < 16) : hexDigit n ≠ 0x2D := by
  interval_cases n <;> decide

theorem hexDigit_ne_slash (n : Nat) (h : n < 16) : hexDigit n ≠ 0x2F := by
  interval_cases n <;> decide

theorem xtob_hexDigit (b : Byte) :
    xtob (hexDigit (b.val / 16)) (hexDigit (b.val % 16)) = some b := by
  have h1 : b.val / 16 < 16 := by omega
  have h2 : b.val % 16 < 16 := by omega
  have hb : toByte (b.val / 16 * 16 + b.val % 16) = b := by
    apply Fin.ext
    rw [toByte_val]
    omega
  simp only [xtob, xvalues_hexDigit _ h1, xvalues_hexDigit _ h2, hb]
  rw [if_pos]
  constructor <;> omega

theorem UUID_String_sixteen
    (a0 a1 a2 a3 a4 a5 a6 a7 a8 a9 a10 a11 a12 a13 a14 a15 : Byte)
    (hs : [a0, a1, a2, a3, a4, a5, a6, a7, a8, a9, a10, a11, a12, a13, a14, a15].length = 16) :
    UUID.String ⟨[a0, a1, a2, a3, a4, a5, a6, a7, a8, a9, a10, a11, a12, a13, a14, a15], hs⟩ =
      [hexDigit (a0.val / 16), hexDigit (a0.val % 16), hexDigit (a1.val / 16),
        hexDigit (a1.val % 16), hexDigit (a2.val / 16), hexDigit (a2.val % 16),
        hexDigit (a3.val / 16), hexDigit (a3.val % 16), 0x2D,
        hexDigit (a4.val / 16), hexDigit (a4.val % 16), hexDigit (a5.val / 16),
        hexDigit (a5.val % 16), 0x2D,
        hexDigit (a6.val / 16), hexDigit (a6.val % 16), hexDigit (a7.val / 16),
        hexDigit (a7.val % 16), 0x2D,
        hexDigit (a8.val / 16), hexDigit (a8.val % 16), hexDigit (a9.val / 16),
        hexDigit (a9.val % 16), 0x2D,
        hexDigit (a10.val / 16), hexDigit (a10.val % 16), hexDigit (a11.val / 16),
        hexDigit (a11.val % 16), hexDigit (a12.val / 16), hexDigit (a12.val % 16),
        hexDigit (a13.val / 16), hexDigit (a13.val % 16), hexDigit (a14.val / 16),
        hexDigit (a14.val % 16), hexDigit (a15.val / 16), hexDigit (a15.val % 16)] := by
  simp [UUID.String, hexEncode, lit_dash]

theorem UUID_String_length (g : UUID) : g.String.length = 36 := by
  obtain ⟨bytes, hs⟩ := g
  obtain ⟨a0, a1, a2, a3, a4, a5, a6, a7, a8, a9, a10, a11, a12, a13, a14, a15, rfl⟩ :=
    list_length_16 bytes hs
  rw [UUID_String_sixteen]
  rfl

/-- The text form of a UUID parses back to the UUID. -/
theorem UUID_Parse_String (g : UUID) : UUID.Parse g.String = .ok g := by
  obtain ⟨bytes, hs⟩ := g
  obtain ⟨a0, a1, a2, a3, a4, a5, a6, a7, a8, a9, a10, a11, a12, a13, a14, a15, rfl⟩ :=
    list_length_16 bytes hs
  rw [UUID_String_sixteen]
  simp [UUID.Parse, index, parseHexAt, xtob_hexDigit, UUID.FromBytes]

theorem UUID_String_no_slash (g : UUID) : (0x2F : Byte) ∉ g.String := by
  obtain ⟨bytes, hs⟩ := g
  obtain ⟨a0, a1, a2, a3, a4, a5, a6, a7, a8, a9, a10, a11, a12, a13, a14, a15, rfl⟩ :=
    list_length_16 bytes hs
  rw [UUID_String_sixteen]
  have hd : ∀ n, n < 16 → (0x2F : Byte) ≠ hexDigit n := fun n hn => (hexDigit_ne_slash n hn).symm
  have e : (0x2F : Byte) ≠ 0x2D := by decide
  simp only [List.mem_cons, List.mem_singleton, List.not_mem_nil, or_false, not_or]
  refine ⟨?_, ?_, ?_, ?_, ?_, ?_, ?_, ?_, ?_, ?_, ?_, ?_, ?_, ?_, ?_, ?_, ?_, ?_, ?_, ?_, ?_,
    ?_, ?_, ?_, ?_, ?_, ?_, ?_, ?_, ?_, ?_, ?_, ?_, ?_, ?_, ?_⟩ <;>
    first
      | exact e
      | (apply hd; omega)

theorem IndexByte_append (c : Byte) : ∀ (l r : GoString), c ∉ l →
    IndexByte (l ++ c :: r) c = some l.length := by
  intro l
  induction l with
  | nil => intro r _; simp [IndexByte]
  | cons b t ih =>
    intro r h
    have hb : b ≠ c := fun e => h (by simp [e])
    have ht : c ∉ t := fun e => h (by simp [e])
    simp [IndexByte, hb, ih r ht]

theorem SplitN2_append (name rest : GoString) (h : (0x2D : Byte) ∉ name) :
    SplitN2 (name ++ 0x2D :: rest) = [name, rest] := by
  simp [SplitN2, IndexByte_append _ name rest h]

theorem takeWhile_append_stop {α : Type} (p : α → Bool) (y : α) (r : List α) :
    ∀ l : List α, (∀ x ∈ l, p x = true) → p y = false → (l ++ y :: r).takeWhile p = l := by
  intro l
  induction l with
  | nil => intro _ hy; simp [List.takeWhile, hy]
  | cons a t ih =>
    intro hl hy
    have ha := hl a (by simp)
    simp [List.takeWhile, ha, ih (fun x hx => hl x (by simp [hx])) hy]

theorem efivars_reverse :
    Linux.efivars.reverse = 0x2F :: (lit "/sys/firmware/efi/efivars").reverse := by
  decide

theorem Base_efivars_append (f : GoString) (hne : f ≠ []) (hns : (0x2F : Byte) ∉ f) :
    Base (Linux.efivars ++ f) = f := by
  have hpath : Linux.efivars ++ f ≠ [] := by simp [hne]
  obtain ⟨a, t, hrev⟩ : ∃ a t, f.reverse = a :: t := by
    cases hr : f.reverse with
    | nil => exact absurd (List.reverse_eq_nil_iff.mp hr) hne
    | cons a t => exact ⟨a, t, rfl⟩
  have ha : a ≠ 0x2F := by
    intro e
    apply hns
    rw [← List.mem_reverse, hrev, e]
    simp
  have hall : ∀ x ∈ f.reverse, (decide (x ≠ (0x2F : Byte))) = true := by
    intro x hx
    have : x ≠ 0x2F := fun e => hns (by rw [← e]; exact List.mem_reverse.mp hx)
    simpa using this
  have hdrop : ((Linux.efivars ++ f).reverse.dropWhile (fun c => decide (c = (0x2F : Byte)))) =
      f.reverse ++ Linux.efivars.reverse := by
    rw [List.reverse_append, hrev]
    simp [List.dropWhile, ha]
  have htake : (f.reverse ++ Linux.efivars.reverse).takeWhile
      (fun c => decide (c ≠ (0x2F : Byte))) = f.reverse := by
    rw [efivars_reverse]
    exact takeWhile_append_stop _ _ _ _ hall (by simp)
  unfold Base
  rw [if_neg hpath]
  dsimp only
  rw [hdrop, List.reverse_reverse, htake, List.reverse_reverse, if_neg hne]

/-- The file name built for a variable whose name has no `-` and no `/` parses back to
that name and GUID. -/
theorem GetAllVars_entry_round_trip (name : GoString) (g : UUID) (p : PrivateIface)
    (hdash : (0x2D : Byte) ∉ name) (hslash : (0x2F : Byte) ∉ name) :
    Linux.GetAllVars.entry (Linux.getFileForVariable.fileName ⟨g, name, p⟩) =
      .ok ⟨g, name, .nilIface⟩ := by
  have hf : Linux.getFileForVariable.fileName ⟨g, name, p⟩ =
      Linux.efivars ++ (name ++ 0x2D :: g.String) := by
    simp [Linux.getFileForVariable.fileName, lit_dash]
  have hns : (0x2F : Byte) ∉ name ++ 0x2D :: g.String := by
    have := UUID_String_no_slash g
    have e : (0x2F : Byte) ≠ 0x2D := by decide
    simp [hslash, this, e]
  rw [Linux.GetAllVars.entry, hf, Base_efivars_append _ (by simp) hns,
    SplitN2_append name _ hdash]
  simp [index, UUID.MustParse, UUID_Parse_String, UefiVariable.zero]

/-! ## File names of variables (Linux): names with a `-` -/

theorem Parse_after_hyphen_error (post : GoString) (g : UUID) :
    ∃ msg, UUID.Parse (post ++ 0x2D :: g.String) = .error msg := by
  have hlen : (post ++ 0x2D :: g.String).length = post.length + 37 := by
    simp [UUID_String_length]
  by_cases h8 : post.length = 8
  · have hfold : equalFoldUrnPrefix ((post ++ 0x2D :: g.String).take 9) = false := by
      have ht : (post ++ 0x2D :: g.String).take 9 = post ++ [0x2D] := by
        rw [List.take_append_eq_append_take, h8,
          List.take_of_length_le (by omega : post.length ≤ 9)]
        rfl
      rw [ht, equalFoldUrnPrefix]
      simp only [decide_eq_false_iff_not]
      intro heq
      have := congrArg List.getLast? heq
      simp at this
      revert this
      decide
    refine ⟨"invalid urn prefix", ?_⟩
    simp [UUID.Parse, hlen, h8, hfold]
  · by_cases h1 : post.length = 1
    · obtain ⟨c, rfl⟩ : ∃ c, post = [c] := List.length_eq_one.mp h1
      obtain ⟨bytes, hs⟩ := g
      obtain ⟨a0, a1, a2, a3, a4, a5, a6, a7, a8, a9, a10, a11, a12, a13, a14, a15, rfl⟩ :=
        list_length_16 bytes hs
      rw [UUID_String_sixteen]
      have hd := hexDigit_ne_dash (a3.val % 16) (by omega)
      refine ⟨"invalid UUID format", ?_⟩
      simp [UUID.Parse, index, hd]
    · refine ⟨"invalid UUID length", ?_⟩
      have e36 : ¬ post.length + 37 = 36 := by omega
      have e45 : ¬ post.length + 37 = 36 + 9 := by omega
      have e38 : ¬ post.length + 37 = 36 + 2 := by omega
      have e32 : ¬ post.length + 37 = 32 := by omega
      simp only [UUID.Parse, hlen, if_neg e36, if_neg e45, if_neg e38, if_neg e32,
        Outcome.error_bind]

/-- The file name built for a variable whose name contains a `-` never parses back:
the remainder after the first `-` is not a UUID text and `uuid.MustParse` panics. -/
theorem GetAllVars_entry_hyphen_panics (name : GoString) (g : UUID) (p : PrivateIface)
    (hdash : (0x2D : Byte) ∈ name) (hslash : (0x2F : Byte) ∉ name) :
    Linux.GetAllVars.entry (Linux.getFileForVariable.fileName ⟨g, name, p⟩) = .panic := by
  obtain ⟨pre, post, rfl, hpre⟩ := List.eq_append_cons_of_mem hdash
  have hf : Linux.getFileForVariable.fileName ⟨g, pre ++ 0x2D :: post, p⟩ =
      Linux.efivars ++ (pre ++ 0x2D :: (post ++ 0x2D :: g.String)) := by
    simp [Linux.getFileForVariable.fileName, lit_dash]
  have hns : (0x2F : Byte) ∉ pre ++ 0x2D :: (post ++ 0x2D :: g.String) := by
    have := UUID_String_no_slash g
    have e : (0x2F : Byte) ≠ 0x2D := by decide
    simp only [List.mem_append, List.mem_cons, not_or] at hslash ⊢
    exact ⟨hslash.1, e, hslash.2.2, e, this⟩
  obtain ⟨msg, hmsg⟩ := Parse_after_hyphen_error post g
  rw [Linux.GetAllVars.entry, hf, Base_efivars_append _ (by simp) hns,
    SplitN2_append pre _ hpre]
  simp [index, UUID.MustParse, hmsg]

/-- The Linux lookup by name: when the glob finds exactly the file of the variable, the
path is already clean and the file can be opened, a name with no `-` and no `/` comes
back with its GUID. -/
theorem Linux_GetVarByName_round_trip (glob : GoString → Outcome (List GoString))
    (clean : GoString → GoString) (fs : Linux.Efivarfs) (name : GoString) (g : UUID)
    (strict : Bool) (content : List Byte)
    (hdash : (0x2D : Byte) ∉ name) (hslash : (0x2F : Byte) ∉ name)
    (hglob : glob (Linux.efivars ++ name ++ lit "-*") =
      .ok [Linux.getFileForVariable.fileName ⟨g, name, .nilIface⟩])
    (hclean : clean (Linux.getFileForVariable.fileName ⟨g, name, .nilIface⟩) =
      Linux.getFileForVariable.fileName ⟨g, name, .nilIface⟩)
    (hopen : fs (Linux.getFileForVariable.fileName ⟨g, name, .nilIface⟩) = some content) :
    Linux.GetVarByName glob clean fs name strict = .ok ⟨g, name, .nilIface⟩ := by
  have hpre : Linux.efivars.isPrefixOf
      (Linux.getFileForVariable.fileName ⟨g, name, .nilIface⟩) = true := by
    rw [List.isPrefixOf_iff_prefix]
    simp [Linux.getFileForVariable.fileName, List.append_assoc]
  rw [Linux.GetVarByName, hglob]
  simp [index, hclean, hpre, hopen, GetAllVars_entry_round_trip name g .nilIface hdash hslash]

theorem accessors_on_parsed_variable (stream : List Byte) (off next : Nat) (v : UefiVariable)
    (h : Windows.getUefiVariableFromByteStream stream off = .ok (v, next)) :
    Windows.getAttributeForVar v = .ok (dwordAt stream (off + 12)) ∧
      Windows.getRawValueForVar v = .ok (valueField stream off) := by
  obtain ⟨g, -, hp⟩ := getUefiVariableFromByteStream_accepted stream off
    (getUefiVariableFromByteStream_ok_accepted h)
  rw [h] at hp
  injection hp with hp
  injection hp with hv _
  subst hv
  exact ⟨rfl, rfl⟩

/-! ## The trailing NUL of a decoded name -/

theorem encodeRune_getLast (r : Nat) : (encodeRune r).getLast? = some 0 ↔ r = 0 := by
  have hz : ∀ n : Nat, (toByte n = 0) ↔ n % 256 = 0 := by
    intro n
    constructor
    · intro h
      have := congrArg Fin.val h
      simpa [toByte_val] using this
    · intro h
      apply Fin.ext
      simpa [toByte_val] using h
  unfold encodeRune
  split
  · simp [hz]; omega
  · split
    · simp [hz]; omega
    · split
      · simp; omega
      · split
        · simp [hz]; omega
        · simp [hz]; omega

theorem stringOfRunes_getLast (rs : List Nat) :
    (stringOfRunes rs).getLast? = some 0 ↔ rs.getLast? = some 0 := by
  induction rs using List.reverseRecOn with
  | nil => simp [stringOfRunes]
  | append_singleton init r _ =>
    have hne := encodeRune_ne_nil r
    have : stringOfRunes (init ++ [r]) = stringOfRunes init ++ encodeRune r := by
      simp [stringOfRunes]
    rw [this, List.getLast?_append_of_ne_nil _ hne, encodeRune_getLast]
    simp

theorem getLast_opt_cons_ne_nil {α : Type} (a : α) (l : List α) (h : l ≠ []) :
    (a :: l).getLast? = l.getLast? := by
  cases l with
  | nil => exact absurd rfl h
  | cons b t => simp [List.getLast?_cons_cons]

theorem utf16Decode_getLast : ∀ (n : Nat) (units : List Nat), units.length = n →
    ((utf16Decode units).getLast? = some 0 ↔ units.getLast? = some 0) := by
  intro n
  induction n using Nat.strong_induction_on with
  | _ n ih =>
    intro units hl
    rcases units with _ | ⟨r, _ | ⟨r2, rest⟩⟩
    · simp [utf16Decode]
    · simp only [utf16Decode, surr1, surr3, replacementChar]
      split
      · simp
      · simp; omega
    · simp only [List.length_cons] at hl
      have ih1 := ih (rest.length + 1) (by omega) (r2 :: rest) (by simp)
      have hne1 := utf16Decode_ne_nil (r2 :: rest) (by simp)
      simp only [utf16Decode]
      split
      · rw [getLast_opt_cons_ne_nil _ _ hne1, ih1]
        simp [List.getLast?_cons_cons]
      · split
        · rename_i hpair
          rcases rest with _ | ⟨r3, rest'⟩
          · simp only [utf16Decode, surr1, surr2, surr3, surrSelf] at hpair ⊢
            simp
            omega
          · have ih2 := ih (rest'.length + 1) (by simp at hl; omega) (r3 :: rest') (by simp)
            have hne2 := utf16Decode_ne_nil (r3 :: rest') (by simp)
            rw [getLast_opt_cons_ne_nil _ _ hne2, ih2]
            simp [List.getLast?_cons_cons]
        · rw [getLast_opt_cons_ne_nil _ _ hne1, ih1]
          simp [List.getLast?_cons_cons]

/-- The name written in a name field loses one more character exactly when the code
unit before the terminator is itself NUL (a double null terminated name). -/
theorem nameOfField_double_nul (field : List Byte) :
    nameOfField field =
      if (codeUnits field).dropLast.getLast? = some 0 then
        (stringOfRunes (utf16Decode (codeUnits field).dropLast)).dropLast
      else stringOfRunes (utf16Decode (codeUnits field).dropLast) := by
  have h := (stringOfRunes_getLast (utf16Decode (codeUnits field).dropLast)).trans
    (utf16Decode_getLast _ _ rfl)
  unfold nameOfField dropTrailingNul
  by_cases hc : (codeUnits field).dropLast.getLast? = some 0
  · rw [if_pos hc, if_pos (h.mpr hc)]
  · rw [if_neg hc, if_neg (fun e => hc (h.mp e))]

/-! ## The enumeration loop on chains of complete records (Windows) -/

theorem AcceptedRecord_complete {stream : List Byte} {off : Nat}
    (h : AcceptedRecord stream off) : CompleteRecord stream off :=
  ⟨h.1, by have := h.2.1; omega, h.2.2⟩

theorem CompleteRecord_cases {stream : List Byte} {off : Nat} (h : CompleteRecord stream off) :
    AcceptedRecord stream off ∨
      Windows.getUefiVariableFromByteStream stream off = .panic := by
  obtain ⟨hhdr, h34, hfit⟩ := h
  by_cases h36 : 36 ≤ dwordAt stream (off + 4)
  · exact Or.inl ⟨hhdr, h36, hfit⟩
  · exact Or.inr (getUefiVariableFromByteStream_empty_name stream off hhdr (by omega) hfit)

theorem IsChain_of_accepted (stream : List Byte) : ∀ (offs : List Nat) (off : Nat),
    IsAcceptedChain stream off offs → IsChain stream off offs := by
  intro offs
  induction offs with
  | nil => intro off h; exact ⟨AcceptedRecord_complete h.1, h.2⟩
  | cons off' rest ih =>
    intro off h
    exact ⟨AcceptedRecord_complete h.1, h.2.1, h.2.2.1, ih off' h.2.2.2⟩

theorem IsAcceptedChain_of_names (stream : List Byte) : ∀ (offs : List Nat) (off : Nat),
    IsChain stream off offs → (∀ o ∈ off :: offs, 36 ≤ dwordAt stream (o + 4)) →
    IsAcceptedChain stream off offs := by
  intro offs
  induction offs with
  | nil =>
    intro off h hall
    exact ⟨⟨h.1.1, hall off (by simp), h.1.2.2⟩, h.2⟩
  | cons off' rest ih =>
    intro off h hall
    exact ⟨⟨h.1.1, hall off (by simp), h.1.2.2⟩, h.2.1, h.2.2.1,
      ih off' h.2.2.2 (fun o ho => hall o (List.mem_cons_of_mem _ ho))⟩

theorem GetAllVars_loop_chain_panics (stream : List Byte) : ∀ (offs : List Nat)
    (off fuel : Nat) (acc : List UefiVariable), off ≠ 0 → IsChain stream off offs →
    (∃ o ∈ off :: offs, dwordAt stream (o + 4) < 36) → stream.length < fuel + off →
    Windows.GetAllVars.loop stream fuel off acc = some .panic := by
  intro offs
  induction offs with
  | nil =>
    intro off fuel acc hoff hchain hex hfuel
    obtain ⟨hc, -⟩ := hchain
    obtain ⟨o, ho, hlt⟩ := hex
    simp only [List.mem_singleton] at ho
    subst ho
    have hhdr := hc.1
    obtain ⟨f, rfl⟩ : ∃ f, fuel = f + 1 := ⟨fuel - 1, by omega⟩
    rcases CompleteRecord_cases hc with hacc | hp
    · have := hacc.2.1
      omega
    · simp [Windows.GetAllVars.loop, hoff, hp]
  | cons off' rest ih =>
    intro off fuel acc hoff hchain hex hfuel
    obtain ⟨hc, hpos, hnext, hrest⟩ := hchain
    have hhdr := hc.1
    obtain ⟨f, rfl⟩ : ∃ f, fuel = f + 1 := ⟨fuel - 1, by omega⟩
    rcases CompleteRecord_cases hc with hacc | hp
    · obtain ⟨g, -, hp⟩ := getUefiVariableFromByteStream_accepted stream off hacc
      have hnext' : dwordAt stream off + off = off' := by omega
      rw [if_neg (by omega), hnext'] at hp
      have hex' : ∃ o ∈ off' :: rest, dwordAt stream (o + 4) < 36 := by
        obtain ⟨o, ho, hlt⟩ := hex
        rcases List.mem_cons.mp ho with rfl | ho'
        · have := hacc.2.1
          omega
        · exact ⟨o, ho', hlt⟩
      obtain ⟨v, hv⟩ : ∃ v, Windows.getUefiVariableFromByteStream stream off =
          .ok (v, off') := ⟨_, hp⟩
      have hloop := ih off' f (acc ++ [v]) (by omega) hrest hex' (by omega)
      simp only [Windows.GetAllVars.loop, hv]
      simpa [hoff] using hloop
    · simp [Windows.GetAllVars.loop, hoff, hp]

/-- On a chain of complete records one of which has an empty name (`ValueOffset` 34 or
35), `GetAllVars` panics and returns no variable. -/
theorem GetAllVars_chain_with_empty_name_panics (stream : List Byte) (offs : List Nat)
    (h : IsChain stream 0 offs) (hex : ∃ o ∈ 0 :: offs, dwordAt stream (o + 4) < 36) :
    Windows.GetAllVars stream = some .panic := by
  have hhdr : 0 + 32 ≤ stream.length := by
    cases offs with
    | nil => exact h.1.1
    | cons off' rest => exact h.1.1
  have hc : CompleteRecord stream 0 := by
    cases offs with
    | nil => exact h.1
    | cons off' rest => exact h.1
  rcases CompleteRecord_cases hc with hacc | hp
  · obtain ⟨g, -, hp⟩ := getUefiVariableFromByteStream_accepted stream 0 hacc
    cases offs with
    | nil =>
      obtain ⟨o, ho, hlt⟩ := hex
      simp only [List.mem_singleton] at ho
      subst ho
      have := hacc.2.1
      omega
    | cons off' rest =>
      obtain ⟨-, hpos, hnext, hrest⟩ := h
      have hnext' : dwordAt stream 0 + 0 = off' := by omega
      rw [if_neg (by omega), hnext'] at hp
      have hex' : ∃ o ∈ off' :: rest, dwordAt stream (o + 4) < 36 := by
        obtain ⟨o, ho, hlt⟩ := hex
        rcases List.mem_cons.mp ho with rfl | ho'
        · have := hacc.2.1
          omega
        · exact ⟨o, ho', hlt⟩
      obtain ⟨v, hv⟩ : ∃ v, Windows.getUefiVariableFromByteStream stream 0 =
          .ok (v, off') := ⟨_, hp⟩
      have hloop := GetAllVars_loop_chain_panics stream rest off' (stream.length + 1)
        ([] ++ [v]) (by omega) hrest hex' (by omega)
      simp only [Windows.GetAllVars, index_getD stream 0 (by omega), hv]
      simpa using hloop
  · simp [Windows.GetAllVars, index_getD stream 0 (by omega), hp]

/-- On a chain of complete records all of which have a non-empty name
(`ValueOffset ≥ 36`), `GetAllVars` returns exactly the parses of the records, in buffer
order. -/
theorem GetAllVars_chain_with_names (stream : List Byte) (offs : List Nat)
    (h : IsChain stream 0 offs) (hall : ∀ o ∈ 0 :: offs, 36 ≤ dwordAt stream (o + 4)) :
    ∃ vars, Windows.GetAllVars stream = some (.ok vars) ∧ vars.length = offs.length + 1 ∧
      List.Forall₂ (fun o v => ∃ next, Windows.getUefiVariableFromByteStream stream o =
        .ok (v, next)) (0 :: offs) vars :=
  GetAllVars_parses_accepted_chain stream offs (IsAcceptedChain_of_names stream offs 0 h hall)

/-- C8, at the failing input: `emptyNameFirst` holds a chain of two complete records
starting at offset 0 (the first with `NextOffset` 36, the distance to the second; the
second with `NextOffset` 0), so the statement says `GetAllVars` returns two variables.
The first record has a name field that is only the terminator; the first call of
`getUefiVariableFromByteStream` panics on `ret.Name[len(ret.Name)-1]`, and `GetAllVars`
panics without returning any variable. -/
theorem GetAllVars_panics_on_chain_with_empty_name :
    IsChain emptyNameFirst 0 [36] ∧
      Windows.getUefiVariableFromByteStream emptyNameFirst 0 = .panic ∧
      Windows.GetAllVars emptyNameFirst = some .panic := by
  decide

end Gouefivars
